import Mathlib

/-! # stringergen: extraction of struct names and generation of `String` methods

A shallow embedding of `stringergen.go` (package `main` of chasemao/stringergen)
and theorems about it.

Conventions of the embedding.

* A Go `string` (and a `[]byte` holding text) is a `GoString`, the list of its
  Unicode code points: every string the program handles (identifiers and package
  names of a parsed file, flag values, paths) is taken to be valid UTF-8.
* A Go function returning `(T, error)` returns `Except Error T`; `Except.error e`
  stands for the pair of the zero value and the non-nil error `e`.
* Calls that leave the program (the Go parser, `imports.Process`, `os.Create`,
  `(*os.File).Write`, `fmt.Printf`) take their results from an `Env` and are
  recorded, in order, in a list of `Event`s returned next to the result.
* Package-level variables read by the code (`d.debug`, the flag `*source`) are
  fields of `Env`.
* `regexp` is the standard library. The model reads the expressions of a fragment
  of its syntax itself; for every other expression the result of `regexp.Compile`
  is the answer of the library, a `RegexpLib` about which nothing is assumed (see
  `regexp_Compile`).
* The directory tree that `filepath.WalkDir` finds is a `Node`; a walk returns an
  `Outcome` (a panic, or the error returned) and its `Step`s: the calls of
  `genSource` by the callback and the calls that leave the program.
-/

namespace StringerGen

/-! ## Strings -/

/-- Go `string`: the sequence of its code points. -/
abbrev GoString := List Char

/-- The part of `fmt.Sprintf` the program uses: the verbs `%s` and `%v` with
operands that print as their text (strings, errors) and `%%`; every other
character of the format is copied. A verb without operand prints `%!s(MISSING)`
(`%!v(MISSING)`), as in Go; operands left over, which Go reports after the text,
are dropped (every call of the program gives as many operands as verbs). -/
def Sprintf : List Char → List GoString → GoString
  | [], _ => []
  | '%' :: '%' :: rest, args => '%' :: Sprintf rest args
  | '%' :: 's' :: rest, a :: args => a ++ Sprintf rest args
  | '%' :: 's' :: rest, [] => "%!s(MISSING)".toList ++ Sprintf rest []
  | '%' :: 'v' :: rest, a :: args => a ++ Sprintf rest args
  | '%' :: 'v' :: rest, [] => "%!v(MISSING)".toList ++ Sprintf rest []
  | c :: rest, args => c :: Sprintf rest args

/-- `strings.Split(s, sep)` for a separator of one character (the program only
splits at `","`): the segments of `s` between separators, in order; the result is
never empty. -/
def strings_Split : GoString → Char → List GoString
  | [], _ => [[]]
  | c :: t, sep =>
    if c = sep then [] :: strings_Split t sep
    else
      match strings_Split t sep with
      | [] => [[c]]
      | seg :: segs => (c :: seg) :: segs

/-- ASCII lower-casing of one character, the fast path of `strings.ToLower`:
`'A'..'Z'` are moved by `'a' - 'A'`, every other character is kept. -/
def asciiToLower (c : Char) : Char :=
  if 'A'.toNat ≤ c.toNat ∧ c.toNat ≤ 'Z'.toNat then Char.ofNat (c.toNat + 32) else c

/-- `strings.ToLower(name[0:1])` for a non-empty `name` whose first character is
`c`. `name[0:1]` is the first *byte* of the string. When `c` is ASCII this byte is
`c` and `strings.ToLower` takes its ASCII path. Otherwise the byte is the lead byte
of a multi-byte encoding, which on its own is not valid UTF-8: `strings.ToLower`
goes through `strings.Map`, which replaces it by `utf8.RuneError` (U+FFFD). -/
def lowerFirstByte (c : Char) : GoString :=
  if c.toNat < 128 then [asciiToLower c] else [Char.ofNat 0xFFFD]

/-- `filepath.Ext(path)`: the suffix of `path` starting at the last dot of its
last element (the part after the last `/`); empty when there is no dot. The
auxiliary scans the reversed path, carrying the suffix read so far. -/
def filepath_ExtAux : List Char → List Char → GoString
  | [], _ => []
  | c :: rest, acc =>
    if c = '/' then []
    else if c = '.' then c :: acc
    else filepath_ExtAux rest (c :: acc)

/-- `filepath.Ext(path)`. -/
def filepath_Ext (path : GoString) : GoString :=
  filepath_ExtAux path.reverse []

/-! ## Errors -/

/-- The error codes of `regexp/syntax` (`syntax.ErrorCode`). -/
inductive ErrorCode where
  | ErrInternalError
  | ErrInvalidCharClass
  | ErrInvalidCharRange
  | ErrInvalidEscape
  | ErrInvalidNamedCapture
  | ErrInvalidPerlOp
  | ErrInvalidRepeatOp
  | ErrInvalidRepeatSize
  | ErrInvalidUTF8
  | ErrMissingBracket
  | ErrMissingParen
  | ErrMissingRepeatArgument
  | ErrTrailingBackslash
  | ErrUnexpectedParen
  | ErrNestingDepth
  | ErrLarge
  deriving DecidableEq, Repr

/-- Go `error` values. -/
inductive Error where
  /-- an error made by `fmt.Errorf`, with its text -/
  | errorf (text : GoString)
  /-- a `*syntax.Error` of `regexp.Compile` -/
  | regexpSyntax (code : ErrorCode)
  /-- an error returned by a call outside the program (parser, formatter, file system) -/
  | external (text : GoString)
  /-- the sentinel `filepath.SkipDir` -/
  | SkipDir
  deriving DecidableEq, Repr

/-- Text of an error code (`ErrorCode.String`). -/
def ErrorCode.text : ErrorCode → GoString
  | .ErrInternalError => "regexp/syntax: internal error".toList
  | .ErrInvalidCharClass => "invalid character class".toList
  | .ErrInvalidCharRange => "invalid character class range".toList
  | .ErrInvalidEscape => "invalid escape sequence".toList
  | .ErrInvalidNamedCapture => "invalid named capture".toList
  | .ErrInvalidPerlOp => "invalid or unsupported Perl syntax".toList
  | .ErrInvalidRepeatOp => "invalid nested repetition operator".toList
  | .ErrInvalidRepeatSize => "invalid repeat count".toList
  | .ErrInvalidUTF8 => "invalid UTF-8".toList
  | .ErrMissingBracket => "missing closing ]".toList
  | .ErrMissingParen => "missing closing )".toList
  | .ErrMissingRepeatArgument => "missing argument to repetition operator".toList
  | .ErrTrailingBackslash => "trailing backslash at end of expression".toList
  | .ErrUnexpectedParen => "unexpected )".toList
  | .ErrNestingDepth => "expression nests too deeply".toList
  | .ErrLarge => "expression too large".toList

/-- `err.Error()`. For a syntax error the text stops after the code: the quoted
piece of the pattern that Go appends is not modelled. -/
def Error.errorText : Error → GoString
  | .errorf text => text
  | .regexpSyntax code => "error parsing regexp: ".toList ++ code.text
  | .external text => text
  | .SkipDir => "skip this directory".toList

deriving instance DecidableEq for Except

/-! ## Regular expressions (`regexp`) -/

/-- Zero-width assertions of `regexp/syntax` (`EmptyOp`). -/
inductive EmptyOp where
  | BeginLine
  | EndLine
  | BeginText
  | EndText
  | WordBoundary
  | NoWordBoundary
  deriving DecidableEq, Repr

/-- Syntax tree of a regular expression (`syntax.Regexp`), with binary
concatenation and alternation. A counted repetition (`OpRepeat`) is written with
`cat`, `quest`, `star` and `plus`, as `(*syntax.Regexp).Simplify` writes it before
a program is compiled, and a literal that ignores case as the class of its
variants. -/
inductive Regex where
  /-- `OpEmptyMatch`: matches the empty string -/
  | empty
  /-- `OpNoMatch`: matches nothing -/
  | noMatch
  /-- `OpLiteral` of one character -/
  | lit (c : Char)
  /-- `OpAnyCharNotNL`, the pattern `.` -/
  | anyNotNL
  /-- `OpAnyChar`, the pattern `.` under the flag `s` -/
  | anyChar
  /-- `OpCharClass`: the characters inside (or, when `neg`, outside) the ranges -/
  | cls (neg : Bool) (ranges : List (Char × Char))
  /-- `OpBeginLine`, `OpEndLine`, `OpBeginText`, `OpEndText`, `OpWordBoundary`,
  `OpNoWordBoundary` -/
  | emptyWidth (op : EmptyOp)
  /-- `OpCapture` -/
  | capture (a : Regex)
  /-- `OpConcat` -/
  | cat (a b : Regex)
  /-- `OpAlternate` -/
  | alt (a b : Regex)
  /-- `OpStar` -/
  | star (a : Regex)
  /-- `OpPlus` -/
  | plus (a : Regex)
  /-- `OpQuest` -/
  | quest (a : Regex)
  deriving DecidableEq, Repr

/-- Membership of a character in a list of inclusive ranges. -/
def inRanges (c : Char) (ranges : List (Char × Char)) : Bool :=
  ranges.any (fun r => decide (r.1.toNat ≤ c.toNat ∧ c.toNat ≤ r.2.toNat))

/-- Word characters of `\b`: `[0-9A-Za-z_]`. -/
def isWordChar : Option Char → Bool
  | none => false
  | some c => inRanges c [('0', '9'), ('A', 'Z'), ('a', 'z'), ('_', '_')]

/-- Truth of a zero-width assertion between the previous character `prev`
(`none` at the beginning of the text) and the remaining input `rest`. -/
def EmptyOp.holds : EmptyOp → Option Char → List Char → Bool
  | .BeginLine, prev, _ => prev.isNone || prev == some '\n'
  | .EndLine, _, rest => rest.isEmpty || rest.head? == some '\n'
  | .BeginText, prev, _ => prev.isNone
  | .EndText, _, rest => rest.isEmpty
  | .WordBoundary, prev, rest => isWordChar prev != isWordChar rest.head?
  | .NoWordBoundary, prev, rest => isWordChar prev == isWordChar rest.head?

/-- Iteration of a matcher `m` for `OpStar`: either stop here, or let `m` consume
at least one character and iterate. `fuel` bounds the number of iterations; the
length of the remaining input is always enough. -/
def starAux (m : Option Char → List Char → (Option Char → List Char → Bool) → Bool) :
    Nat → Option Char → List Char → (Option Char → List Char → Bool) → Bool
  | 0, prev, s, k => k prev s
  | fuel + 1, prev, s, k =>
    k prev s || m prev s (fun p t => decide (t.length < s.length) && starAux m fuel p t k)

/-- Backtracking matcher: `re.matchK prev s k` holds when `re` matches a prefix of
`s` (the character before `s` being `prev`) such that the continuation `k` accepts
the character before the rest and the rest. -/
def Regex.matchK : Regex → Option Char → List Char → (Option Char → List Char → Bool) → Bool
  | .empty, prev, s, k => k prev s
  | .noMatch, _, _, _ => false
  | .lit c, _, s, k =>
    match s with
    | [] => false
    | d :: t => decide (c = d) && k (some d) t
  | .anyNotNL, _, s, k =>
    match s with
    | [] => false
    | d :: t => decide (d ≠ '\n') && k (some d) t
  | .anyChar, _, s, k =>
    match s with
    | [] => false
    | d :: t => k (some d) t
  | .cls neg ranges, _, s, k =>
    match s with
    | [] => false
    | d :: t => (inRanges d ranges != neg) && k (some d) t
  | .emptyWidth op, prev, s, k => op.holds prev s && k prev s
  | .capture a, prev, s, k => Regex.matchK a prev s k
  | .cat a b, prev, s, k => Regex.matchK a prev s (fun p t => Regex.matchK b p t k)
  | .alt a b, prev, s, k => Regex.matchK a prev s k || Regex.matchK b prev s k
  | .star a, prev, s, k => starAux (Regex.matchK a) s.length prev s k
  | .plus a, prev, s, k =>
    Regex.matchK a prev s (fun p t => starAux (Regex.matchK a) t.length p t k)
  | .quest a, prev, s, k => Regex.matchK a prev s k || k prev s

/-- Unanchored search: `re` matches some substring of the text, tried at every
starting position from left to right. -/
def Regex.search (re : Regex) : Option Char → List Char → Bool
  | prev, [] => re.matchK prev [] (fun _ _ => true)
  | prev, c :: t => re.matchK prev (c :: t) (fun _ _ => true) || Regex.search re (some c) t

/-- A compiled pattern (`*regexp.Regexp`): its source text and its syntax tree. -/
structure Regexp where
  /-- the source text, returned by `re.String()` -/
  expr : GoString
  /-- the parsed expression -/
  prog : Regex
  deriving DecidableEq, Repr

/-- `re.Match(b)`: whether the text contains any match of the expression. -/
def Regexp.Match (re : Regexp) (b : GoString) : Bool :=
  re.prog.search none b

/-- One open group of the parser of `regexp/syntax`: the alternatives finished so
far (in order) and the pieces of the alternative being read (latest first). The
parser's operator stack between two `(` markers holds exactly these. -/
structure Frame where
  alts : List Regex
  cur : List Regex

/-- Concatenation of the pieces of one alternative (`parser.concat`); no piece
gives `OpEmptyMatch`. -/
def concatAll : List Regex → Regex
  | [] => .empty
  | [r] => r
  | r :: rs => .cat r (concatAll rs)

/-- Alternation of alternatives (`parser.alternate`). -/
def alternateAll : List Regex → Regex
  | [] => .noMatch
  | [r] => r
  | r :: rs => .alt r (alternateAll rs)

/-- The expression of a group when it is closed by `)` or by the end of the input. -/
def Frame.close (f : Frame) : Regex :=
  alternateAll (f.alts ++ [concatAll f.cur.reverse])

/-- Adds a piece to the alternative being read. -/
def Frame.push (f : Frame) (r : Regex) : Frame :=
  { f with cur := r :: f.cur }

/-- ASCII letters and digits (`isalnum` of `regexp/syntax`). -/
def isalnum (c : Char) : Bool :=
  inRanges c [('0', '9'), ('A', 'Z'), ('a', 'z')]

/-- Perl character classes `\d \s \w`. -/
def perlClass : Char → Option (List (Char × Char))
  | 'd' => some [('0', '9')]
  | 's' => some [('\t', '\n'), ('\x0c', '\r'), (' ', ' ')]
  | 'w' => some [('0', '9'), ('A', 'Z'), ('_', '_'), ('a', 'z')]
  | _ => none

/-- What the model makes of an expression: its syntax tree, the syntax error the
library reports, or `other` for an expression with syntax that the model does not
read and leaves to the library. -/
inductive Parsed where
  | ok (re : Regex)
  | error (code : ErrorCode)
  | other
  deriving DecidableEq, Repr

/-- What follows a backslash: the piece it stands for, or an error. The escapes
`\Q \p \P \x` and those that start with an octal digit are left to the library. -/
def parseEscape (e : Char) : Parsed :=
  if e = 'A' then .ok (.emptyWidth .BeginText)
  else if e = 'z' then .ok (.emptyWidth .EndText)
  else if e = 'b' then .ok (.emptyWidth .WordBoundary)
  else if e = 'B' then .ok (.emptyWidth .NoWordBoundary)
  else if e = 'd' ∨ e = 's' ∨ e = 'w' then .ok (.cls false ((perlClass e).getD []))
  else if e = 'D' ∨ e = 'S' ∨ e = 'W' then
    .ok (.cls true ((perlClass (asciiToLower e)).getD []))
  else if e = 'a' then .ok (.lit (Char.ofNat 7))
  else if e = 'f' then .ok (.lit (Char.ofNat 12))
  else if e = 'n' then .ok (.lit '\n')
  else if e = 'r' then .ok (.lit '\r')
  else if e = 't' then .ok (.lit '\t')
  else if e = 'v' then .ok (.lit (Char.ofNat 11))
  else if e = 'Q' ∨ e = 'p' ∨ e = 'P' ∨ e = 'x' ∨ inRanges e [('0', '7')] then .other
  else if e.toNat < 128 ∧ isalnum e = false then .ok (.lit e)
  else .error .ErrInvalidEscape

/-- The parser of `regexp/syntax` (with the flags `syntax.Perl` used by
`regexp.Compile`), one character of the pattern at a time. `skip` tells that the
character at hand was already consumed as the second character of the previous
step (the `?` of a non-greedy operator, the character after a backslash),
`lastRepeat` that the previous piece was a repetition operator, `cur` is the
innermost open group and `outer` the groups around it.

Read by the model: literals, `.`, `^`, `$`, `*`, `+`, `?` (each also in its
non-greedy form `*?`, `+?`, `??`), `|`, capturing groups, and the escapes `\A \z \b
\B \d \D \s \S \w \W \a \f \n \r \t \v` and backslash before ASCII punctuation.
At a bracket class, a brace, a group starting with `(?`, or one of the escapes
`\Q \p \P \x` and octal digits, the result is `other`: the expression is left to
the library. An error that the parser meets before such a place is the error of
the library, which reads the expression from left to right as well. -/
def parseLoop : List Char → Bool → Bool → Frame → List Frame → Parsed
  | [], _, _, cur, outer =>
    match outer with
    | [] => .ok cur.close
    | _ :: _ => .error .ErrMissingParen
  | c :: t, skip, lastRepeat, cur, outer =>
    if skip then parseLoop t false lastRepeat cur outer
    else if c = '(' then
      if t.head? = some '?' then .other
      else parseLoop t false false ⟨[], []⟩ (cur :: outer)
    else if c = ')' then
      match outer with
      | [] => .error .ErrUnexpectedParen
      | f :: fs => parseLoop t false false (f.push (.capture cur.close)) fs
    else if c = '|' then
      parseLoop t false false ⟨cur.alts ++ [concatAll cur.cur.reverse], []⟩ outer
    else if c = '^' then parseLoop t false false (cur.push (.emptyWidth .BeginText)) outer
    else if c = '$' then parseLoop t false false (cur.push (.emptyWidth .EndText)) outer
    else if c = '.' then parseLoop t false false (cur.push .anyNotNL) outer
    else if c = '[' ∨ c = '{' then .other
    else if c = '*' ∨ c = '+' ∨ c = '?' then
      if lastRepeat then .error .ErrInvalidRepeatOp
      else
        match cur.cur with
        | [] => .error .ErrMissingRepeatArgument
        | r :: rs =>
          let rep := if c = '*' then Regex.star r else if c = '+' then Regex.plus r
            else Regex.quest r
          parseLoop t (t.head? = some '?') true { cur with cur := rep :: rs } outer
    else if c = '\\' then
      match t.head? with
      | none => .error .ErrTrailingBackslash
      | some e =>
        match parseEscape e with
        | .error code => .error code
        | .other => .other
        | .ok r => parseLoop t true false (cur.push r) outer
    else parseLoop t false false (cur.push (.lit c)) outer

/-- The answers of the library: for an expression, the error code `regexp.Compile`
reports or a syntax tree of the expression it compiles. The model asks for the
expressions it does not read itself; nothing is assumed about the answers. -/
abbrev RegexpLib := GoString → Except ErrorCode Regex

/-- The characters the pattern parser treats specially; a pattern without any of
them is a literal. -/
def isMetaChar (c : Char) : Bool :=
  decide (c ∈ ['\\', '.', '+', '*', '?', '(', ')', '|', '[', '{', '^', '$'])

/-- The largest number of special characters in an expression the model reads. -/
def operatorLimit : Nat := 64

/-- The largest length of an expression the model reads. -/
def lengthLimit : Nat := 16777216

/-- Whether an expression is small enough for the model to read. Current
versions of `regexp/syntax` give up on an expression whose syntax tree is higher
than 1000 nodes (`ErrNestingDepth`), whose program would take more than about 3.3
million instructions, or which holds more than `2 ^ 25` code points (`ErrLarge`).
The parser looks at height and size only from its 1000th node on, and an
expression of the syntax read here with at most `operatorLimit` special characters
makes far fewer nodes; one of at most `lengthLimit` characters holds fewer than
`2 ^ 25` code points, the classes of its escapes included. Every larger expression
is left to the library, which decides whether it compiles. -/
def withinLimits (expr : GoString) : Bool :=
  decide ((expr.filter isMetaChar).length ≤ operatorLimit) &&
    decide (expr.length ≤ lengthLimit)

/-- `regexp.Compile(expr)`, for the library answering `lib`. The compiled pattern
keeps the expression as its source text (`regexp.compile` stores `expr`). The
model reads an expression within `withinLimits` and of the syntax of `parseLoop`
itself; for every other expression the result is the answer of the library. The
error is a `*syntax.Error`, of which the code is kept. -/
def regexp_Compile (lib : RegexpLib) (expr : GoString) : Except Error Regexp :=
  let answer : Except ErrorCode Regex :=
    if withinLimits expr then
      match parseLoop expr false false ⟨[], []⟩ [] with
      | .ok re => .ok re
      | .error code => .error code
      | .other => lib expr
    else lib expr
  match answer with
  | .error code => .error (.regexpSyntax code)
  | .ok re => .ok ⟨expr, re⟩

/-- The loop of `compileExcl` over the patterns, with the compiled patterns
gathered so far: it returns at the first pattern that does not compile. -/
def compileExclLoop (lib : RegexpLib) : List GoString → List Regexp → Except Error (List Regexp)
  | [], exclRes => .ok exclRes
  | pattern :: patterns, exclRes =>
    match regexp_Compile lib pattern with
    | .error err => .error err
    | .ok exclRe => compileExclLoop lib patterns (exclRes ++ [exclRe])

/-! ## Syntax trees (`go/ast`) -/

/-- The keyword of a general declaration (`gd.Tok`). -/
inductive Token where
  | IMPORT
  | CONST
  | TYPE
  | VAR
  deriving DecidableEq, Repr

/-- One field line of a struct type: the field names and the text of their type. -/
structure Field where
  Names : List GoString
  Typ : GoString
  deriving DecidableEq, Repr

/-- Type expressions (`ast.Expr`), as far as a type declaration can hold them. -/
inductive Expr where
  | Ident (Name : GoString)
  | SelectorExpr (X : GoString) (Sel : GoString)
  | StarExpr (X : Expr)
  | ParenExpr (X : Expr)
  | ArrayType (Elt : Expr)
  | MapType (Key : Expr) (Value : Expr)
  | ChanType (Value : Expr)
  | FuncType
  | InterfaceType
  | StructType (Fields : List Field)
  deriving DecidableEq, Repr

/-- One specification of a general declaration (`ast.Spec`). In a `TypeSpec`,
`Assign` tells whether the declaration has an `=` (an alias declaration). -/
inductive Spec where
  | ImportSpec (Path : GoString)
  | ValueSpec (Names : List GoString)
  | TypeSpec (Name : GoString) (Assign : Bool) (Typ : Expr)
  deriving DecidableEq, Repr

/-- A top-level declaration (`ast.Decl`). -/
inductive Decl where
  | BadDecl
  | GenDecl (Tok : Token) (Specs : List Spec)
  | FuncDecl (Name : GoString)
  deriving DecidableEq, Repr

/-- A parsed source file (`ast.File`): package name and top-level declarations. -/
structure File where
  Name : GoString
  Decls : List Decl
  deriving DecidableEq, Repr

/-! ## The outside world -/

/-- An open destination (`*os.File`): standard output or a created file. -/
inductive Dst where
  | Stdout
  | File (name : GoString)
  deriving DecidableEq, Repr

/-- `f.Name()`. -/
def Dst.Name : Dst → GoString
  | .Stdout => "/dev/stdout".toList
  | .File name => name

/-- An operand of a debug message. -/
inductive Arg where
  | str (s : GoString)
  | strs (l : List GoString)
  deriving DecidableEq, Repr

/-- Calls that leave the program, as they are recorded. -/
inductive Event where
  /-- `fmt.Printf(format, args...)` and the newline after it, by `d.Printf` -/
  | Printf (format : GoString) (args : List Arg)
  /-- `parser.ParseFile(fileSet, filename, nil, 0)` -/
  | ParseFile (filename : GoString)
  /-- `imports.Process("", src, nil)` -/
  | Process (src : GoString)
  /-- `os.Create(name)` -/
  | Create (name : GoString)
  /-- `f.Write(b)` -/
  | Write (f : Dst) (b : GoString)
  deriving DecidableEq, Repr

/-- Package-level state read by the code and the answers of the calls that leave
the program. -/
structure Env where
  /-- `d.debug`, set from the flag `-v` -/
  debug : Bool
  /-- the value of the flag `-source` -/
  source : GoString
  /-- result of parsing the file of that name -/
  ParseFile : GoString → Except Error File
  /-- result of `imports.Process` on a source text -/
  Process : GoString → Except Error GoString
  /-- error, if any, of `os.Create` on a name -/
  Create : GoString → Option Error
  /-- error, if any, of writing the bytes to a destination -/
  Write : Dst → GoString → Option Error

/-- `d.Printf(format, args...)`: prints only in debug mode. -/
def debuger_Printf (env : Env) (format : GoString) (args : List Arg) : List Event :=
  if env.debug then [Event.Printf format args] else []

/-- Colour escape `reset`. -/
def reset : GoString := "\x1b[0m".toList
/-- Colour escape `green`. -/
def green : GoString := "\x1b[32m".toList
/-- Colour escape `yellow`. -/
def yellow : GoString := "\x1b[33m".toList
/-- Colour escape `blue`. -/
def blue : GoString := "\x1b[34m".toList

/-! ## The program -/

/-- `compileExcl`, for the library answering `lib`: the patterns of the
comma-separated `-exclude` value, compiled in order; no pattern for the empty
value. The debug message `exclude compile success` is not recorded: the result
does not depend on it. -/
def compileExcl (lib : RegexpLib) (excl : GoString) : Except Error (List Regexp) :=
  if excl ≠ [] then compileExclLoop lib (strings_Split excl ',') []
  else .ok []

/-- `parseSkipDir`. -/
def parseSkipDir (dir : GoString) : List GoString :=
  strings_Split dir ','

/-- `matchExcl`: the loop returns at the first pattern that matches. -/
def matchExcl (name : GoString) : List Regexp → Bool
  | [] => false
  | exclRe :: exclRes => if exclRe.Match name then true else matchExcl name exclRes

/-- The type `output`. -/
structure output where
  buf : GoString
  pkg : GoString
  structNames : List GoString
  method : GoString
  deriving DecidableEq, Repr

/-- Inner loop of `parseFile`, over the specifications of one type declaration. -/
def parseSpecs (env : Env) (exclRes : List Regexp) :
    List Spec → output × List Event → output × List Event
  | [], st => st
  | spec :: specs, (out, evs) =>
    match spec with
    | .TypeSpec name _ type =>
      match type with
      | .StructType _ =>
        if !matchExcl name exclRes then
          parseSpecs env exclRes specs ({ out with structNames := out.structNames ++ [name] }, evs)
        else
          parseSpecs env exclRes specs (out, evs ++ debuger_Printf env
            "EXCLUDE STRUCT: %s in file %s".toList [.str name, .str env.source])
      | _ => parseSpecs env exclRes specs (out, evs)
    | _ => parseSpecs env exclRes specs (out, evs)

/-- Outer loop of `parseFile`, over the declarations of the file. -/
def parseDecls (env : Env) (exclRes : List Regexp) :
    List Decl → output × List Event → output × List Event
  | [], st => st
  | decl :: decls, st =>
    match decl with
    | .GenDecl tok specs =>
      if tok ≠ Token.TYPE then parseDecls env exclRes decls st
      else parseDecls env exclRes decls (parseSpecs env exclRes specs st)
    | _ => parseDecls env exclRes decls st

/-- `parseFile`. The error it returns is always nil. -/
def parseFile (env : Env) (file : File) (exclRes : List Regexp) (method : GoString) :
    Except Error output × List Event :=
  let out : output := { buf := [], pkg := file.Name, structNames := [], method := method }
  let st := parseDecls env exclRes file.Decls (out, [])
  (.ok st.1, st.2)

/-- `o.addln(s)`: writes `s` and a newline to the buffer. -/
def output.addln (o : output) (s : GoString) : output :=
  { o with buf := o.buf ++ s ++ ['\n'] }

/-- The loop of `genJSON` from index `i` on. An empty name is skipped; for the
others `c` is the first character of the name. -/
def genJSONLoop : Nat → List GoString → output → output
  | _, [], o => o
  | i, name :: names, o =>
    match name with
    | [] => genJSONLoop (i + 1) names o
    | c :: _ =>
      let o := if i ≠ 0 then o.addln [] else o
      let n := lowerFirstByte c
      let o := o.addln "// String Used in fmt to generate string".toList
      let o := o.addln (Sprintf "func (%s *%s) String() string \x7b".toList [n, name])
      let o := o.addln (Sprintf "v, _ := json.Marshal(%s)".toList [n])
      let o := o.addln "return string(v)".toList
      let o := o.addln "\x7d".toList
      genJSONLoop (i + 1) names o

/-- `(*output).genJSON`. -/
def output.genJSON (o : output) : output :=
  let o := o.addln ("package ".toList ++ o.pkg)
  let o := o.addln []
  let o := o.addln "import (".toList
  let o := o.addln "\"encoding/json\"".toList
  let o := o.addln ")".toList
  let o := o.addln []
  genJSONLoop 0 o.structNames o

/-- The loop of `genJSONIter` from index `i` on. -/
def genJSONIterLoop : Nat → List GoString → output → output
  | _, [], o => o
  | i, name :: names, o =>
    match name with
    | [] => genJSONIterLoop (i + 1) names o
    | c :: _ =>
      let o := if i ≠ 0 then o.addln [] else o
      let n := lowerFirstByte c
      let o := o.addln "// String Used in fmt to generate string".toList
      let o := o.addln (Sprintf "func (%s *%s) String() string \x7b".toList [n, name])
      let o := o.addln
        (Sprintf "v, _ := jsoniter.ConfigCompatibleWithStandardLibrary.Marshal(%s)".toList [n])
      let o := o.addln "return string(v)".toList
      let o := o.addln "\x7d".toList
      genJSONIterLoop (i + 1) names o

/-- `(*output).genJSONIter`. -/
def output.genJSONIter (o : output) : output :=
  let o := o.addln ("package ".toList ++ o.pkg)
  let o := o.addln []
  let o := o.addln "import (".toList
  let o := o.addln "jsoniter \"github.com/json-iterator/go\"".toList
  let o := o.addln ")".toList
  let o := o.addln []
  genJSONIterLoop 0 o.structNames o

/-- The loop of `genFmt` from index `i` on. -/
def genFmtLoop : Nat → List GoString → output → output
  | _, [], o => o
  | i, name :: names, o =>
    match name with
    | [] => genFmtLoop (i + 1) names o
    | c :: _ =>
      let o := if i ≠ 0 then o.addln [] else o
      let n := lowerFirstByte c
      let o := o.addln "// String Used in fmt to generate string".toList
      let o := o.addln (Sprintf "func (%s *%s) String() string \x7b".toList [n, name])
      let o := o.addln (Sprintf "return fmt.Sprintf(\"%%+v\",*%s)".toList [n])
      let o := o.addln "\x7d".toList
      genFmtLoop (i + 1) names o

/-- `(*output).genFmt`. -/
def output.genFmt (o : output) : output :=
  let o := o.addln ("package ".toList ++ o.pkg)
  let o := o.addln []
  let o := o.addln "import (".toList
  let o := o.addln "\"fmt\"".toList
  let o := o.addln ")".toList
  let o := o.addln []
  genFmtLoop 0 o.structNames o

/-- `(*output).gen`: the result, the receiver after the call, and the calls made. -/
def output.gen (env : Env) (o : output) : Except Error GoString × output × List Event :=
  let o := { o with buf := [] }
  if o.method = "json".toList then
    let o := o.genJSON
    (env.Process o.buf, o, [Event.Process o.buf])
  else if o.method = "jsoniter".toList then
    let o := o.genJSONIter
    (env.Process o.buf, o, [Event.Process o.buf])
  else if o.method = "fmt".toList then
    let o := o.genFmt
    (env.Process o.buf, o, [Event.Process o.buf])
  else
    (.error (.errorf (Sprintf "unknown method: %s".toList [o.method])), o, [])

/-- `readGOFile`. -/
def readGOFile (env : Env) (source : GoString) : Except Error File × List Event :=
  match env.ParseFile source with
  | .error err =>
    (.error (.errorf (Sprintf "failed parsing source file %v: %v".toList
      [source, err.errorText])), [Event.ParseFile source])
  | .ok file => (.ok file, [Event.ParseFile source])

/-- `getDstFile`. -/
def getDstFile (env : Env) (destination : GoString) : Except Error Dst × List Event :=
  if destination = [] then (.ok .Stdout, [])
  else
    match env.Create destination with
    | some err => (.error err, [Event.Create destination])
    | none => (.ok (.File destination), [Event.Create destination])

/-- `genSource`: the error it returns (`none` for nil) and the calls made. -/
def genSource (env : Env) (source destination : GoString) (exclRes : List Regexp)
    (method : GoString) : Option Error × List Event :=
  let ev0 := debuger_Printf env (blue ++ "Handle %s start...".toList ++ reset) [.str source]
  if filepath_Ext source ≠ ".go".toList then
    (none, ev0 ++ debuger_Printf env (yellow ++ "NOT GO FILE: %s".toList ++ reset) [.str source])
  else
    match readGOFile env source with
    | (.error err, ev1) => (some err, ev0 ++ ev1)
    | (.ok file, ev1) =>
      let ev2 := debuger_Printf env "Read Go file %s success".toList [.str source]
      match parseFile env file exclRes method with
      | (.error err, ev3) => (some err, ev0 ++ ev1 ++ ev2 ++ ev3)
      | (.ok out, ev3) =>
        let ev4 := debuger_Printf env "Parse Go file %s success get structs=%v".toList
          [.str source, .strs out.structNames]
        if out.structNames.length = 0 then
          (none, ev0 ++ ev1 ++ ev2 ++ ev3 ++ ev4 ++ debuger_Printf env
            (yellow ++ "NO STRUCT IN FILE: %s".toList ++ reset) [.str source])
        else
          match out.gen env with
          | (.error err, _, ev5) => (some err, ev0 ++ ev1 ++ ev2 ++ ev3 ++ ev4 ++ ev5)
          | (.ok stringerFile, _, ev5) =>
            let ev6 := debuger_Printf env
              "Generate String method success for file %s".toList [.str source]
            match getDstFile env destination with
            | (.error err, ev7) =>
              (some err, ev0 ++ ev1 ++ ev2 ++ ev3 ++ ev4 ++ ev5 ++ ev6 ++ ev7)
            | (.ok dstFile, ev7) =>
              let ev8 := debuger_Printf env
                "Going to generate destination file %s for file %s".toList
                [.str dstFile.Name, .str source]
              let ev9 := [Event.Write dstFile stringerFile]
              match env.Write dstFile stringerFile with
              | some err =>
                (some err, ev0 ++ ev1 ++ ev2 ++ ev3 ++ ev4 ++ ev5 ++ ev6 ++ ev7 ++ ev8 ++ ev9)
              | none =>
                (none, ev0 ++ ev1 ++ ev2 ++ ev3 ++ ev4 ++ ev5 ++ ev6 ++ ev7 ++ ev8 ++ ev9 ++
                  debuger_Printf env
                    (green ++ "GENERATE SOURCE FILE SUCCESS: %s".toList ++ reset) [.str source])


/-! ## Paths (`path/filepath`) -/

/-- `filepath.Base(path)`: the last element of the path, trailing slashes
removed; `.` for the empty path and `/` for a path of slashes only. -/
def filepath_Base (path : GoString) : GoString :=
  if path = [] then ['.']
  else
    let stripped := path.reverse.dropWhile (fun c => c = '/')
    let last := (stripped.takeWhile (fun c => c ≠ '/')).reverse
    if last = [] then ['/'] else last

/-- The elements that `filepath.Clean` keeps, from the elements of the path
between slashes: empty elements and `.` are dropped, `..` removes the element
before it (at the start of a rooted path it is dropped, at the start of another
path it stays). `stack` holds the elements kept so far, latest first. -/
def cleanElems (rooted : Bool) : List GoString → List GoString → List GoString
  | [], stack => stack.reverse
  | e :: es, stack =>
    if e = [] ∨ e = ['.'] then cleanElems rooted es stack
    else if e = ['.', '.'] then
      match stack with
      | top :: rest =>
        if top = ['.', '.'] then cleanElems rooted es (e :: stack)
        else cleanElems rooted es rest
      | [] => if rooted then cleanElems rooted es [] else cleanElems rooted es [e]
    else cleanElems rooted es (e :: stack)

/-- `filepath.Clean(path)`: the shortest path equivalent to `path` by lexical
processing; `.` when nothing is left. -/
def filepath_Clean (path : GoString) : GoString :=
  let rooted : Bool := path.head? = some '/'
  let out := (if rooted then ['/'] else []) ++
    List.intercalate ['/'] (cleanElems rooted (strings_Split path '/') [])
  if out = [] then ['.'] else out

/-- `filepath.Join(dir, name)`: the non-empty elements joined by a slash, cleaned;
the empty path when both are empty. -/
def filepath_Join (dir name : GoString) : GoString :=
  if dir ≠ [] then filepath_Clean (dir ++ '/' :: name)
  else if name ≠ [] then filepath_Clean name
  else []

/-! ## Directory trees and `filepath.WalkDir` -/

/-- A directory entry (`fs.DirEntry`), as far as the program reads it. -/
structure DirEntry where
  Name : GoString
  IsDir : Bool
  deriving DecidableEq, Repr

/-- What is found at a path: a file (anything that is not a directory), or a
directory with the entries `os.ReadDir` returns for it, in the order it returns
them, and the error it returns with them, if any. -/
inductive Node where
  | file (name : GoString)
  | dir (name : GoString) (readErr : Option Error) (entries : List Node)

/-- The name of a node. -/
def Node.name : Node → GoString
  | .file name => name
  | .dir name _ _ => name

/-- How a call ends: with a run-time panic, or by returning an error (`none` for
nil). -/
inductive Outcome where
  | Panic
  | Return (err : Option Error)
  deriving DecidableEq, Repr

/-- What the walk does, in order: a call of `genSource` by the callback, with the
source and destination it passes, or a call that leaves the program. -/
inductive Step where
  | GenSource (source destination : GoString)
  | Outside (e : Event)
  deriving DecidableEq, Repr

mutual
/-- The function `walkDir` of `path/filepath`: calls `fn` for the node at `path`
and, for a directory that `fn` does not skip, walks its entries; `fn` is called a
second time for a directory whose read reported an error. -/
def walkDir (fn : GoString → Option DirEntry → Option Error → Outcome × List Step) :
    GoString → Node → Outcome × List Step
  | path, .file name => fn path (some ⟨name, false⟩) none
  | path, .dir name readErr entries =>
    match fn path (some ⟨name, true⟩) none with
    | (.Panic, s) => (.Panic, s)
    | (.Return (some err), s) => (.Return (if err = .SkipDir then none else some err), s)
    | (.Return none, s) =>
      match readErr with
      | some rerr =>
        match fn path (some ⟨name, true⟩) (some rerr) with
        | (.Panic, s2) => (.Panic, s ++ s2)
        | (.Return (some err), s2) =>
          (.Return (if err = .SkipDir then none else some err), s ++ s2)
        | (.Return none, s2) =>
          let r := walkEntries fn path entries
          (r.1, s ++ s2 ++ r.2)
      | none =>
        let r := walkEntries fn path entries
        (r.1, s ++ r.2)
/-- The loop of `walkDir` over the entries of the directory at `path`: an error
stops it, the error `SkipDir` without being returned. -/
def walkEntries (fn : GoString → Option DirEntry → Option Error → Outcome × List Step) :
    GoString → List Node → Outcome × List Step
  | _, [] => (.Return none, [])
  | path, d1 :: rest =>
    match walkDir fn (filepath_Join path d1.name) d1 with
    | (.Panic, s) => (.Panic, s)
    | (.Return (some err), s) =>
      if err = .SkipDir then (.Return none, s) else (.Return (some err), s)
    | (.Return none, s) =>
      let r := walkEntries fn path rest
      (r.1, s ++ r.2)
end

/-- `filepath.WalkDir(root, fn)`, given the result of `os.Lstat(root)`: the tree
found at `root`, or an error, for which `fn` is called with a nil entry. A
`SkipDir` that reaches the top is turned into nil. (The sentinel `SkipAll` of
later Go versions is not modelled: no call of the program returns it.) -/
def filepath_WalkDir (lstat : Except Error Node) (root : GoString)
    (fn : GoString → Option DirEntry → Option Error → Outcome × List Step) :
    Outcome × List Step :=
  let r := match lstat with
    | .error err => fn root none (some err)
    | .ok node => walkDir fn root node
  match r with
  | (.Return (some err), s) => (.Return (if err = .SkipDir then none else some err), s)
  | (o, s) => (o, s)

/-! ## The program: recursive mode -/

/-- The loop of `isInSkipDirs` over the skip list. -/
def isInSkipDirsLoop (d : DirEntry) : List GoString → Bool
  | [] => false
  | skipDir :: skipDirs => if d.Name = skipDir then true else isInSkipDirsLoop d skipDirs

/-- `isInSkipDirs`, for an entry that is not nil. -/
def isInSkipDirs (d : DirEntry) (skipDirs : List GoString) : Bool :=
  if !d.IsDir then false
  else isInSkipDirsLoop d skipDirs

/-- The callback that `genRecursive` passes to `filepath.WalkDir`. Its first
statement calls `isInSkipDirs(de, skipDirs)`, which calls `de.IsDir()`: for a nil
entry this is a call on a nil interface value, a run-time panic. The destination
`path[:len(path)-len(ext)]` panics when the extension is longer than the path. -/
def genRecursive_func1 (env : Env) (save : Bool) (exclRes : List Regexp) (method : GoString)
    (skipDirs : List GoString) (path : GoString) (de : Option DirEntry) (err : Option Error) :
    Outcome × List Step :=
  match de with
  | none => (.Panic, [])
  | some d =>
    if isInSkipDirs d skipDirs then
      (.Return (some .SkipDir),
        (debuger_Printf env (yellow ++ "SKIP DIR: %s".toList ++ reset) [.str d.Name]).map
          Step.Outside)
    else
      match err with
      | some e => (.Return (some e), [])
      | none =>
        if d.IsDir then (.Return none, [])
        else if !save then
          let r := genSource env path [] exclRes method
          (.Return r.1, Step.GenSource path [] :: r.2.map Step.Outside)
        else
          let fileName := filepath_Base path
          let ext := filepath_Ext fileName
          if path.length < ext.length then (.Panic, [])
          else
            let dst := path.take (path.length - ext.length) ++ "_stringer".toList ++ ext
            let r := genSource env path dst exclRes method
            (.Return r.1, Step.GenSource path dst :: r.2.map Step.Outside)

/-- `genRecursive`, given the result of `os.Lstat(root)`. -/
def genRecursive (env : Env) (lstat : Except Error Node) (root : GoString) (save : Bool)
    (exclRes : List Regexp) (method : GoString) (skipDirs : List GoString) :
    Outcome × List Step :=
  filepath_WalkDir lstat root (genRecursive_func1 env save exclRes method skipDirs)

/-! ## A generated file (`example/example_stringer.go`) -/

/-- The method `(*someStruct).String` of `example/example_stringer.go`, which is
what `genJSON` emits: `v, _ := json.Marshal(s)` followed by `return string(v)`.
`Marshal` stands for `json.Marshal` on the receiver: the bytes (empty for nil) and
the error it returns. -/
def someStruct_String {α : Type} (Marshal : α → GoString × Option Error) (s : α) : GoString :=
  let (v, _) := Marshal s
  v

/-! ## Reference definitions -/

/-- The name a specification contributes: that of a type specification whose type
expression is a struct type, nothing for every other specification. -/
def Spec.structName? : Spec → Option GoString
  | .TypeSpec name _ (.StructType _) => some name
  | _ => none

/-- The struct type names of one top-level declaration, in order: those of the
specifications of a `type` declaration, nothing for every other declaration. -/
def Decl.structNames : Decl → List GoString
  | .GenDecl .TYPE specs => specs.filterMap Spec.structName?
  | _ => []

/-- The names of the top-level type declarations of a file whose type is a
struct, in declaration order. -/
def declaredStructNames (file : File) : List GoString :=
  (file.Decls.map Decl.structNames).flatten

/-- Whether a specification is an alias declaration (`type A = T`). -/
def Spec.isAlias : Spec → Bool
  | .TypeSpec _ assign _ => assign
  | _ => false

/-- The struct type names of a file without those declared by an alias
declaration. -/
def definedStructNames (file : File) : List GoString :=
  ((file.Decls.map (fun d => match d with
    | .GenDecl .TYPE specs => (specs.filter (fun s => !s.isAlias)).filterMap Spec.structName?
    | _ => [])).flatten)

/-- An environment without debug output in which every outside call fails. -/
def quietEnv : Env :=
  { debug := false
    source := []
    ParseFile := fun _ => .error (.external [])
    Process := fun _ => .error (.external [])
    Create := fun _ => some (.external [])
    Write := fun _ _ => some (.external []) }

/-- The file `package main; type A = struct { X int }`. -/
def aliasFile : File :=
  { Name := "main".toList
    Decls := [.GenDecl .TYPE [.TypeSpec "A".toList true (.StructType [⟨["X".toList], "int".toList⟩])]] }

/-- Whether a specification is a type specification whose type expression is a
struct type. -/
def Spec.isStructSpec : Spec → Bool
  | .TypeSpec _ _ (.StructType _) => true
  | _ => false

/-- The number of struct type specifications of one top-level declaration. -/
def Decl.structCount : Decl → Nat
  | .GenDecl .TYPE specs => specs.countP Spec.isStructSpec
  | _ => 0

/-- The number of top-level type specifications of a file whose type expression
is a struct type. -/
def structDeclCount (file : File) : Nat :=
  (file.Decls.map Decl.structCount).sum

/-- The text made of the given lines, each followed by a newline. -/
def unlines (ls : List GoString) : GoString :=
  (ls.map (fun l => l ++ ['\n'])).flatten

/-- The lines of a text: its segments between newlines (the last one is what
follows the last newline). -/
def goLines (text : GoString) : List GoString :=
  strings_Split text '\n'

/-- The method header line emitted for a struct name:
`func (r *Name) String() string {` with `r` the lower-cased first byte of the name. -/
def methodHeader : GoString → GoString
  | [] => []
  | c :: rest =>
    "func (".toList ++ lowerFirstByte c ++ " *".toList ++ (c :: rest) ++
      ") String() string \x7b".toList

/-- Whether a line has the shape of a method header: it starts with `func (` and
ends with `) String() string {`. -/
def isHeaderLine (l : GoString) : Bool :=
  "func (".toList.isPrefixOf l && ") String() string \x7b".toList.isSuffixOf l

/-- What the lines lemma needs of the body lines of a strategy: they have no line
break when the receiver has none, and none has the shape of a header. -/
def BodyOk (body : GoString → List GoString) : Prop :=
  (∀ r, '\n' ∉ r → ∀ l ∈ body r, '\n' ∉ l) ∧ (∀ r, ∀ l ∈ body r, isHeaderLine l = false)

/-- The lines before the methods: package clause and import block. -/
def preludeLines (pkg imp : GoString) : List GoString :=
  ["package ".toList ++ pkg, [], "import (".toList, imp, ")".toList, []]

/-- The import line of the `json` strategy. -/
def importJSON : GoString := "\"encoding/json\"".toList
/-- The import line of the `jsoniter` strategy. -/
def importJSONIter : GoString := "jsoniter \"github.com/json-iterator/go\"".toList
/-- The import line of the `fmt` strategy. -/
def importFmt : GoString := "\"fmt\"".toList

/-- The body lines of a method of the `json` strategy with receiver `r`. -/
def bodyJSON (r : GoString) : List GoString :=
  ["v, _ := json.Marshal(".toList ++ r ++ ")".toList, "return string(v)".toList]

/-- The body lines of a method of the `jsoniter` strategy with receiver `r`. -/
def bodyJSONIter (r : GoString) : List GoString :=
  ["v, _ := jsoniter.ConfigCompatibleWithStandardLibrary.Marshal(".toList ++ r ++ ")".toList,
    "return string(v)".toList]

/-- The body lines of a method of the `fmt` strategy with receiver `r`. -/
def bodyFmt (r : GoString) : List GoString :=
  ["return fmt.Sprintf(\"%+v\",*".toList ++ r ++ ")".toList]

/-- The lines of the method of one name at index `i` of the list: a separating
empty line unless the index is 0, the comment, the header, the body, the closing
brace; nothing for an empty name. -/
def methodLines (body : GoString → List GoString) (i : Nat) : GoString → List GoString
  | [] => []
  | c :: rest =>
    (if i ≠ 0 then [[]] else []) ++
      ["// String Used in fmt to generate string".toList, methodHeader (c :: rest)] ++
      body (lowerFirstByte c) ++ ["\x7d".toList]

/-- The lines of the methods of a list of names whose first index is `i`. -/
def methodsLines (body : GoString → List GoString) : Nat → List GoString → List GoString
  | _, [] => []
  | i, name :: names => methodLines body i name ++ methodsLines body (i + 1) names

/-- An environment without debug output whose formatter accepts every text and
returns it unchanged, and in which the other outside calls fail. -/
def acceptingEnv : Env :=
  { debug := false
    source := []
    ParseFile := fun _ => .error (.external [])
    Process := fun src => .ok src
    Create := fun _ => some (.external [])
    Write := fun _ _ => some (.external []) }

/-- Whether an event is a call of the formatter, the creation of a file or a
write of output. -/
def Event.isOutput : Event → Bool
  | .Process _ => true
  | .Create _ => true
  | .Write _ _ => true
  | _ => false

/-- The file `package main; type A struct { X int }`. -/
def exampleFile : File :=
  { Name := "main".toList
    Decls := [.GenDecl .TYPE [.TypeSpec "A".toList false (.StructType [⟨["X".toList], "int".toList⟩])]] }

/-- An environment with debug output in which every source name parses to
`exampleFile`, the formatter returns its input and files can be created and
written. -/
def exampleEnv : Env :=
  { debug := true
    source := "a.go".toList
    ParseFile := fun _ => .ok exampleFile
    Process := fun src => .ok src
    Create := fun _ => none
    Write := fun _ _ => none }

/-- Whether an event is the creation of a file or a write of output. -/
def Event.isFileOp : Event → Bool
  | .Create _ => true
  | .Write _ _ => true
  | _ => false

/-! ## Reference definitions: patterns, skip list, walk -/

/-- One compiled pattern per segment, in segment order; the error of the first
segment that is not a valid regular expression, if there is one. -/
def compileSegments (lib : RegexpLib) : List GoString → Except Error (List Regexp)
  | [] => .ok []
  | seg :: segs =>
    match regexp_Compile lib seg with
    | .error err => .error err
    | .ok re =>
      match compileSegments lib segs with
      | .error err => .error err
      | .ok res => .ok (re :: res)

/-- The reference definition of `compileExcl`: no pattern for the empty string,
else the compiled segments of the string between commas. -/
def compileExclRef (lib : RegexpLib) (excl : GoString) : Except Error (List Regexp) :=
  if excl = [] then .ok [] else compileSegments lib (strings_Split excl ',')

/-- A library that compiles the expression `[A-Z]+` (one or more capital letters)
and reports a missing bracket for every other expression it is asked for. -/
def capitalsLib : RegexpLib := fun expr =>
  if expr = "[A-Z]+".toList then .ok (.plus (.cls false [('A', 'Z')]))
  else .error .ErrMissingBracket

/-- The source a step passes to `genSource`, if the step is such a call. -/
def Step.source? : Step → Option GoString
  | .GenSource source _ => some source
  | .Outside _ => none

/-- The sources passed to `genSource` in a run, in order. -/
def calledSources (steps : List Step) : List GoString :=
  steps.filterMap Step.source?

mutual
/-- The files of the tree at `path`, each with its path (as the walk forms it)
and the names of the directories it lies beneath, innermost first, in depth-first
order; `above` holds the names of the directories above the tree. -/
def filesBeneath : GoString → List GoString → Node → List (GoString × List GoString)
  | path, above, .file _ => [(path, above)]
  | path, above, .dir name _ entries => filesBeneathList path (name :: above) entries
/-- The files of the entries of the directory at `path`. -/
def filesBeneathList : GoString → List GoString → List Node → List (GoString × List GoString)
  | _, _, [] => []
  | path, above, d1 :: rest =>
    filesBeneath (filepath_Join path d1.name) above d1 ++ filesBeneathList path above rest
end

/-- The paths of the files of the tree at `root` that lie beneath no directory
named in the prune set, in depth-first order. -/
def keptFiles (skipDirs : List GoString) (root : GoString) (tree : Node) : List GoString :=
  ((filesBeneath root [] tree).filter
    (fun f => f.2.all (fun name => decide (name ∉ skipDirs)))).map Prod.fst

mutual
/-- The kept files of a tree, by recursion: nothing for a directory named in the
prune set. -/
def keptFilesRec (skipDirs : List GoString) : GoString → Node → List GoString
  | path, .file _ => [path]
  | path, .dir name _ entries =>
    if name ∈ skipDirs then [] else keptFilesRecList skipDirs path entries
/-- The kept files of the entries of the directory at `path`. -/
def keptFilesRecList (skipDirs : List GoString) : GoString → List Node → List GoString
  | _, [] => []
  | path, d1 :: rest =>
    keptFilesRec skipDirs (filepath_Join path d1.name) d1 ++ keptFilesRecList skipDirs path rest
end

mutual
/-- Whether no directory of the tree that the walk reads (none beneath a
directory named in the prune set) reports a read error. -/
def readsOk (skipDirs : List GoString) : Node → Bool
  | .file _ => true
  | .dir name readErr entries =>
    decide (name ∈ skipDirs) || (readErr.isNone && readsOkList skipDirs entries)
/-- `readsOk` for the entries of a directory. -/
def readsOkList (skipDirs : List GoString) : List Node → Bool
  | [] => true
  | d1 :: rest => readsOk skipDirs d1 && readsOkList skipDirs rest
end

/-- The last element of a path: what follows its last slash. -/
def lastElem (path : GoString) : GoString :=
  (path.reverse.takeWhile (fun c => c ≠ '/')).reverse

/-- The directory part of a path: the path up to and including its last slash. -/
def dirPart (path : GoString) : GoString :=
  (path.reverse.dropWhile (fun c => c ≠ '/')).reverse

/-- The destination of recursive mode with `-save` for a source path:
the path without its final extension, then `_stringer`, then the extension. -/
def stringerPath (path : GoString) : GoString :=
  path.take (path.length - (filepath_Ext path).length) ++ "_stringer".toList ++
    filepath_Ext path

/-- The tree of the usage example: the directory `/path/to/directory/` with the
subdirectory `skip1`, which holds the file `a.go`. -/
def usageTree : Node :=
  .dir "directory".toList none [.dir "skip1".toList none [.file "a.go".toList]]

/-- A directory with the files `a.go` and `b.go`. -/
def twoFilesTree : Node :=
  .dir "pkg".toList none [.file "a.go".toList, .file "b.go".toList]

/-- A tree with a file at the top, a directory `vendor` with a file and a nested
directory, and a directory `sub` that holds a file and a nested `vendor`. -/
def vendorTree : Node :=
  .dir "root".toList none
    [.file "a.go".toList,
     .dir "vendor".toList none [.file "v.go".toList, .dir "x".toList none [.file "w.go".toList]],
     .dir "sub".toList none [.file "b.go".toList, .dir "vendor".toList none [.file "u.go".toList]]]

/-- An encoder that fails on every value with the cycle error of `json.Marshal`. -/
def cycleMarshal (_ : Unit) : GoString × Option Error :=
  ([], some (.external "json: unsupported value: encountered a cycle".toList))

/-- An encoder that fails on every value with another error. -/
def otherMarshal (_ : Unit) : GoString × Option Error :=
  ([], some (.external "json: unsupported type".toList))

/-! ## The default skip list -/

/-- The default value of the flag `-skipdir`, from which `main` computes
`skipDirs := parseSkipDir(*skipdir)` when the flag is not given. -/
def skipdirDefault : GoString := []

mutual
/-- Whether every directory of the tree has a non-empty name. -/
def dirNamesNonEmpty : Node → Bool
  | .file _ => true
  | .dir name _ entries => decide (name ≠ []) && dirNamesNonEmptyList entries
/-- `dirNamesNonEmpty` for the entries of a directory. -/
def dirNamesNonEmptyList : List Node → Bool
  | [] => true
  | d1 :: rest => dirNamesNonEmpty d1 && dirNamesNonEmptyList rest
end

/-! ## Reference definitions: the course of a walk -/

/-- The destination the walk passes to `genSource` with the source `path`: with
`-save` the path without the extension of its last element, then `_stringer`, then
that extension; without it the empty string. -/
def callDestination (save : Bool) (path : GoString) : GoString :=
  if save then
    path.take (path.length - (filepath_Ext (filepath_Base path)).length) ++
      "_stringer".toList ++ filepath_Ext (filepath_Base path)
  else []

/-- What a walk meets outside the pruned directories that can fail: a file, for
which `genSource` is called, or a directory whose read reports an error. -/
inductive Visit where
  | file (path : GoString)
  | failedRead (path : GoString) (err : Error)
  deriving DecidableEq, Repr

mutual
/-- The visits of the tree at `path`, in depth-first order: none beneath a
directory named in the prune set; a directory whose read fails comes before its
entries. -/
def visits (skipDirs : List GoString) : GoString → Node → List Visit
  | path, .file _ => [.file path]
  | path, .dir name readErr entries =>
    if name ∈ skipDirs then []
    else
      match readErr with
      | some err => .failedRead path err :: visitsList skipDirs path entries
      | none => visitsList skipDirs path entries
/-- The visits of the entries of the directory at `path`. -/
def visitsList (skipDirs : List GoString) : GoString → List Node → List Visit
  | _, [] => []
  | path, d1 :: rest =>
    visits skipDirs (filepath_Join path d1.name) d1 ++ visitsList skipDirs path rest
end

/-- The file of a visit, if it is one. -/
def Visit.source? : Visit → Option GoString
  | .file path => some path
  | .failedRead _ _ => none

/-- The error of a visit: that of the call of `genSource` for a file (`none` when
it succeeds), the read error for a directory. -/
def Visit.error (env : Env) (save : Bool) (exclRes : List Regexp) (method : GoString) :
    Visit → Option Error
  | .file path => (genSource env path (callDestination save path) exclRes method).1
  | .failedRead _ err => some err

/-- The visits up to and including the first one with an error, and that error
(`none` when no visit has one). -/
def untilError (errOf : Visit → Option Error) : List Visit → List Visit × Option Error
  | [] => ([], none)
  | v :: vs =>
    match errOf v with
    | some e => ([v], some e)
    | none => (v :: (untilError errOf vs).1, (untilError errOf vs).2)

/-- An environment without debug output in which the two files `root/a.go` and
`root/sub/b.go` parse to `exampleFile` and no other file parses; the formatter
returns its input and files can be created and written. -/
def vendorEnv : Env :=
  { debug := false
    source := []
    ParseFile := fun name =>
      if name = "root/a.go".toList ∨ name = "root/sub/b.go".toList then .ok exampleFile
      else .error (.external "expected 'package'".toList)
    Process := fun src => .ok src
    Create := fun _ => none
    Write := fun _ _ => none }

/-! ## Extraction (`parseFile`, `matchExcl`) -/

theorem parseSpecs_fst (env : Env) (rules : List Regexp) (specs : List Spec)
    (out : output) (evs : List Event) :
    (parseSpecs env rules specs (out, evs)).1 =
      { out with structNames := out.structNames ++
          (specs.filterMap Spec.structName?).filter (fun n => !matchExcl n rules) } := by
  induction specs generalizing out evs with
  | nil => simp [parseSpecs]
  | cons spec specs ih =>
    cases spec with
    | ImportSpec p => simp [parseSpecs, ih, Spec.structName?]
    | ValueSpec ns => simp [parseSpecs, ih, Spec.structName?]
    | TypeSpec name assign type =>
      cases type <;> simp [parseSpecs, ih, Spec.structName?]
      by_cases h : matchExcl name rules = true <;> simp [h, ih, List.filter_cons]

theorem parseDecls_fst (env : Env) (rules : List Regexp) (decls : List Decl)
    (st : output × List Event) :
    (parseDecls env rules decls st).1 =
      { st.1 with structNames := st.1.structNames ++
          ((decls.map Decl.structNames).flatten).filter (fun n => !matchExcl n rules) } := by
  induction decls generalizing st with
  | nil => simp [parseDecls]
  | cons decl decls ih =>
    obtain ⟨out, evs⟩ := st
    cases decl with
    | BadDecl => simp [parseDecls, ih, Decl.structNames]
    | FuncDecl n => simp [parseDecls, ih, Decl.structNames]
    | GenDecl tok specs =>
      cases tok <;> simp [parseDecls, ih, Decl.structNames, parseSpecs_fst, List.append_assoc]

theorem parseFile_fst (env : Env) (file : File) (rules : List Regexp) (method : GoString) :
    (parseFile env file rules method).1 = .ok
      { buf := [], pkg := file.Name, method := method,
        structNames := (declaredStructNames file).filter (fun n => !matchExcl n rules) } := by
  simp [parseFile, parseDecls_fst, declaredStructNames]

/-! ## Patterns (`regexp`, `compileExcl`) -/

theorem parseLoop_literal (p : List Char) (h : ∀ c ∈ p, isMetaChar c = false)
    (lr : Bool) (cur : Frame) (outer : List Frame) :
    parseLoop p false lr cur outer =
      parseLoop [] false false ⟨cur.alts, (p.map Regex.lit).reverse ++ cur.cur⟩ outer := by
  induction p generalizing lr cur with
  | nil => simp [parseLoop]
  | cons c t ih =>
    have hc := h c (List.mem_cons_self _ _)
    have ht : ∀ d ∈ t, isMetaChar d = false := fun d hd => h d (List.mem_cons_of_mem _ hd)
    simp only [isMetaChar, List.mem_cons, List.mem_singleton, decide_eq_false_iff_not,
      not_or, List.not_mem_nil, not_false_eq_true, and_true] at hc
    obtain ⟨h1, h2, h3, h4, h5, h6, h7, h8, h9, h10, h11, h12⟩ := hc
    have step : parseLoop (c :: t) false lr cur outer =
        parseLoop t false false (cur.push (.lit c)) outer := by
      simp [parseLoop, h1, h2, h3, h4, h5, h6, h7, h8, h9, h10, h11, h12]
    rw [step, ih ht]
    simp [Frame.push]

theorem filter_isMetaChar_literal (p : List Char) (h : ∀ c ∈ p, isMetaChar c = false) :
    p.filter isMetaChar = [] := by
  rw [List.filter_eq_nil_iff]
  intro c hc
  simp [h c hc]

theorem withinLimits_literal (p : List Char) (h : ∀ c ∈ p, isMetaChar c = false)
    (hlen : p.length ≤ lengthLimit) : withinLimits p = true := by
  simp [withinLimits, filter_isMetaChar_literal p h, hlen]

theorem regexp_Compile_literal (lib : RegexpLib) (p : List Char)
    (h : ∀ c ∈ p, isMetaChar c = false) (hlen : p.length ≤ lengthLimit) :
    regexp_Compile lib p = .ok ⟨p, concatAll (p.map Regex.lit)⟩ := by
  simp [regexp_Compile, withinLimits_literal p h hlen, parseLoop_literal p h, parseLoop,
    Frame.close, alternateAll]

theorem matchK_literal (p : List Char) (prev : Option Char) (s : List Char)
    (f : List Char → Bool) :
    (concatAll (p.map Regex.lit)).matchK prev s (fun _ t => f t) =
      (p.isPrefixOf s && f (s.drop p.length)) := by
  induction p generalizing prev s with
  | nil => simp [concatAll, Regex.matchK]
  | cons c p ih =>
    cases p with
    | nil =>
      cases s with
      | nil => simp [concatAll, Regex.matchK]
      | cons d t =>
        by_cases hcd : c = d <;> simp [concatAll, Regex.matchK, hcd]
    | cons c2 p2 =>
      cases s with
      | nil => simp [concatAll, Regex.matchK]
      | cons d t =>
        have := ih (some d) t
        simp only [List.map_cons] at this
        simp only [List.map_cons, concatAll, Regex.matchK, this]
        by_cases hcd : c = d <;> simp [hcd]

theorem search_literal (p : List Char) (prev : Option Char) (s : List Char) :
    (concatAll (p.map Regex.lit)).search prev s = true ↔ p <:+: s := by
  induction s generalizing prev with
  | nil =>
    have := matchK_literal p prev [] (fun _ => true)
    simp only [Bool.and_true] at this
    simp [Regex.search, this]
  | cons c t ih =>
    have := matchK_literal p prev (c :: t) (fun _ => true)
    simp only [Bool.and_true] at this
    simp only [Regex.search, this, Bool.or_eq_true, ih, List.infix_cons_iff,
      List.isPrefixOf_iff_prefix]

theorem starAux_true (m : Option Char → List Char → (Option Char → List Char → Bool) → Bool)
    (n : Nat) (prev : Option Char) (s : List Char) :
    starAux m n prev s (fun _ _ => true) = true := by
  cases n <;> simp [starAux]

theorem search_star (a : Regex) (prev : Option Char) (s : List Char) :
    (Regex.star a).search prev s = true := by
  cases s <;> simp [Regex.search, Regex.matchK, starAux_true]

theorem strings_Split_of_not_mem (s : GoString) (sep : Char) (h : sep ∉ s) :
    strings_Split s sep = [s] := by
  induction s with
  | nil => simp [strings_Split]
  | cons c t ih =>
    have hc : c ≠ sep := fun e => h (e ▸ List.mem_cons_self _ _)
    have ht : sep ∉ t := fun e => h (List.mem_cons_of_mem _ e)
    simp [strings_Split, hc, ih ht]

/-! ## Claims on extraction and exclusion -/

theorem mem_declaredStructNames (file : File) (name : GoString) :
    name ∈ declaredStructNames file ↔
      ∃ specs assign fields, Decl.GenDecl .TYPE specs ∈ file.Decls ∧
        Spec.TypeSpec name assign (.StructType fields) ∈ specs := by
  simp only [declaredStructNames, List.mem_flatten, List.mem_map]
  constructor
  · rintro ⟨l, ⟨d, hd, rfl⟩, hn⟩
    cases d with
    | BadDecl => simp [Decl.structNames] at hn
    | FuncDecl n => simp [Decl.structNames] at hn
    | GenDecl tok specs =>
      cases tok <;> simp only [Decl.structNames, List.not_mem_nil, List.mem_filterMap] at hn
      obtain ⟨spec, hs, hsn⟩ := hn
      cases spec with
      | ImportSpec p => simp [Spec.structName?] at hsn
      | ValueSpec ns => simp [Spec.structName?] at hsn
      | TypeSpec n assign type =>
        cases type <;> simp only [Spec.structName?, Option.some.injEq, reduceCtorEq] at hsn
        subst hsn
        exact ⟨specs, assign, _, hd, hs⟩
  · rintro ⟨specs, assign, fields, hd, hs⟩
    refine ⟨_, ⟨_, hd, rfl⟩, ?_⟩
    simp only [Decl.structNames, List.mem_filterMap]
    exact ⟨_, hs, rfl⟩

theorem length_structNames_specs (specs : List Spec) :
    (specs.filterMap Spec.structName?).length = specs.countP Spec.isStructSpec := by
  induction specs with
  | nil => rfl
  | cons spec specs ih =>
    cases spec with
    | ImportSpec p => simpa [Spec.structName?, Spec.isStructSpec] using ih
    | ValueSpec ns => simpa [Spec.structName?, Spec.isStructSpec] using ih
    | TypeSpec n assign type =>
      cases type <;> simpa [Spec.structName?, Spec.isStructSpec] using ih

theorem length_declaredStructNames (file : File) :
    (declaredStructNames file).length = structDeclCount file := by
  simp only [declaredStructNames, structDeclCount, List.length_flatten, List.map_map]
  congr 1
  apply List.map_congr_left
  intro d _
  cases d with
  | BadDecl => rfl
  | FuncDecl n => rfl
  | GenDecl tok specs =>
    cases tok <;> simp [Decl.structNames, Decl.structCount, length_structNames_specs]

/-- C1 as stated fails: for the file `package main; type A = struct { X int }` and
no exclusion rule `parseFile` returns the name `A` although `A` is declared by an
alias declaration, so that the names of the struct types not declared as aliases
(none here) are not what is returned. -/
theorem parseFile_alias_of_struct_counterexample :
    (∃ out, (parseFile quietEnv aliasFile [] []).1 = .ok out ∧
      out.structNames = ["A".toList]) ∧
    definedStructNames aliasFile = [] ∧
    ¬ ∀ (env : Env) (file : File) (method : GoString), ∃ out,
      (parseFile env file [] method).1 = .ok out ∧
        out.structNames = definedStructNames file := by
  refine ⟨⟨_, rfl, by decide⟩, by decide, ?_⟩
  intro h
  obtain ⟨out, h1, h2⟩ := h quietEnv aliasFile []
  rw [parseFile_fst] at h1
  cases h1
  revert h2
  decide

/-- C1 (amended): with no exclusion rule `parseFile` succeeds and returns as
`structNames` exactly the names of the top-level type specifications whose type
expression is a struct type, written with `=` or not, one entry per such
specification and in declaration order (grouped declarations included); a name is
returned only if such a specification declares it, so specifications of every
other type expression and declarations other than `type` contribute nothing; and
`pkg` is the package name of the file. -/
theorem parseFile_no_exclusion (env : Env) (file : File) (method : GoString) :
    ∃ out, (parseFile env file [] method).1 = .ok out ∧
      out.structNames = declaredStructNames file ∧
      out.structNames.length = structDeclCount file ∧
      (∀ name, name ∈ out.structNames ↔
        ∃ specs assign fields, Decl.GenDecl .TYPE specs ∈ file.Decls ∧
          Spec.TypeSpec name assign (.StructType fields) ∈ specs) ∧
      out.pkg = file.Name := by
  refine ⟨_, parseFile_fst env file [] method, ?_, ?_, ?_, rfl⟩
  · simp [matchExcl]
  · simp only [matchExcl, Bool.not_false, List.filter_true]
    exact length_declaredStructNames file
  · intro name
    simp only [matchExcl, Bool.not_false, List.filter_true]
    exact mem_declaredStructNames file name

/-- C2: for every file and every rule set `parseFile` succeeds and its
`structNames` are the declaration-ordered struct type names of the file with
exactly the names removed that `matchExcl` accepts: it is that list filtered, a
sublist of it (order kept), a name is in it iff it is declared and not excluded,
and every name occurs as often as it is declared if kept and not at all if
excluded. -/
theorem parseFile_exclusion (env : Env) (file : File) (rules : List Regexp)
    (method : GoString) :
    ∃ out, (parseFile env file rules method).1 = .ok out ∧
      out.structNames = (declaredStructNames file).filter (fun n => !matchExcl n rules) ∧
      out.structNames.Sublist (declaredStructNames file) ∧
      (∀ n, n ∈ out.structNames ↔ n ∈ declaredStructNames file ∧ matchExcl n rules = false) ∧
      (∀ n, out.structNames.count n =
        if matchExcl n rules then 0 else (declaredStructNames file).count n) := by
  refine ⟨_, parseFile_fst env file rules method, rfl, List.filter_sublist _, ?_, ?_⟩
  · intro n
    simp [List.mem_filter]
  · intro n
    by_cases h : matchExcl n rules = true
    · simp [h, List.count_eq_zero, List.mem_filter]
    · simp only [h, if_false, Bool.false_eq_true]
      simp only [List.count, List.countP_filter]
      congr 1
      funext a
      by_cases ha : a = n
      · subst ha; simp [h]
      · simp [ha]

theorem matchExcl_eq_any (name : GoString) (rules : List Regexp) :
    matchExcl name rules = rules.any (fun re => re.Match name) := by
  induction rules with
  | nil => rfl
  | cons re rules ih => by_cases h : re.Match name = true <;> simp [matchExcl, h, ih]

/-- C4: `matchExcl name rules` is true iff at least one pattern of the list
matches the name; it is false for the empty list and does not depend on the order
of the patterns. -/
theorem matchExcl_iff_exists (name : GoString) (rules : List Regexp) :
    (matchExcl name rules = true ↔ ∃ re ∈ rules, re.Match name = true) ∧
    matchExcl name [] = false ∧
    (∀ rules2, rules.Perm rules2 → matchExcl name rules2 = matchExcl name rules) := by
  refine ⟨?_, rfl, ?_⟩
  · simp [matchExcl_eq_any, List.any_eq_true]
  · intro rules2 hp
    have h : ∀ l : List Regexp, (matchExcl name l = true ↔ ∃ re ∈ l, re.Match name = true) := by
      intro l; simp [matchExcl_eq_any, List.any_eq_true]
    rw [Bool.eq_iff_iff, h, h]
    constructor
    · rintro ⟨re, hm, hr⟩; exact ⟨re, hp.symm.subset hm, hr⟩
    · rintro ⟨re, hm, hr⟩; exact ⟨re, hp.subset hm, hr⟩

/-- C3: exclusion is an unanchored substring match, whatever the library answers
for the expressions left to it. The rules compiled from `Struct2` accept
`MyStruct2` and reject `MyStruct1`; every pattern without a special character (of
at most `lengthLimit` characters, below the size at which the library gives up)
compiles to a rule that accepts exactly the names containing the pattern as a
contiguous substring (also as the only rule compiled by `compileExcl` from a
non-empty such pattern without comma); and the rules compiled from `.*` accept
every name. -/
theorem matchExcl_substring (lib : RegexpLib) :
    (∃ rules, compileExcl lib "Struct2".toList = .ok rules ∧
      matchExcl "MyStruct2".toList rules = true ∧
      matchExcl "MyStruct1".toList rules = false) ∧
    (∀ pattern : GoString, (∀ c ∈ pattern, isMetaChar c = false) →
      pattern.length ≤ lengthLimit →
      (∃ re, regexp_Compile lib pattern = .ok re ∧ re.expr = pattern ∧
        ∀ name, matchExcl name [re] = true ↔ pattern <:+: name) ∧
      (pattern ≠ [] → ',' ∉ pattern →
        ∃ rules, compileExcl lib pattern = .ok rules ∧
          ∀ name, matchExcl name rules = true ↔ pattern <:+: name)) ∧
    (∃ rules, compileExcl lib ".*".toList = .ok rules ∧ ∀ name, matchExcl name rules = true) := by
  refine ⟨⟨_, rfl, by decide, by decide⟩, ?_, ⟨[⟨".*".toList, .star .anyNotNL⟩], rfl, ?_⟩⟩
  · intro pattern h hlen
    have hm : ∀ name, matchExcl name [⟨pattern, concatAll (pattern.map Regex.lit)⟩] = true ↔
        pattern <:+: name := by
      intro name
      simp [matchExcl, Regexp.Match, search_literal]
    refine ⟨⟨_, regexp_Compile_literal lib pattern h hlen, rfl, hm⟩, ?_⟩
    intro hne hcomma
    refine ⟨[⟨pattern, concatAll (pattern.map Regex.lit)⟩], ?_, hm⟩
    simp [compileExcl, hne, strings_Split_of_not_mem pattern ',' hcomma, compileExclLoop,
      regexp_Compile_literal lib pattern h hlen]
  · intro name
    simp [matchExcl, Regexp.Match, search_star]

/-- The theorem of C3 at the literal pattern `Struct`. -/
theorem matchExcl_substring_witness :
    (∀ c ∈ "Struct".toList, isMetaChar c = false) ∧
    ∃ rules, compileExcl capitalsLib "Struct".toList = .ok rules ∧
      ∀ name, matchExcl name rules = true ↔ "Struct".toList <:+: name :=
  ⟨by decide, (((matchExcl_substring capitalsLib).2.1 "Struct".toList (by decide)
    (by decide)).2 (by decide) (by decide))⟩

/-! ## Generation (`gen`, `genJSON`, `genJSONIter`, `genFmt`) -/

theorem unlines_append (a b : List GoString) : unlines (a ++ b) = unlines a ++ unlines b := by
  simp [unlines]

theorem unlines_cons (l : GoString) (ls : List GoString) :
    unlines (l :: ls) = l ++ '\n' :: unlines ls := by
  simp [unlines]

theorem unlines_nil : unlines [] = [] := rfl

theorem genJSONLoop_buf (i : Nat) (names : List GoString) (o : output) :
    (genJSONLoop i names o).buf = o.buf ++ unlines (methodsLines bodyJSON i names) := by
  induction names generalizing i o with
  | nil => simp [genJSONLoop, methodsLines, unlines_nil]
  | cons name names ih =>
    cases name with
    | nil => simp [genJSONLoop, methodsLines, methodLines, ih]
    | cons c rest =>
      by_cases hi : i = 0 <;>
        simp [genJSONLoop, methodsLines, methodLines, ih, hi, output.addln, unlines_append,
          unlines_cons, unlines_nil, bodyJSON, methodHeader, Sprintf]

theorem genJSONIterLoop_buf (i : Nat) (names : List GoString) (o : output) :
    (genJSONIterLoop i names o).buf = o.buf ++ unlines (methodsLines bodyJSONIter i names) := by
  induction names generalizing i o with
  | nil => simp [genJSONIterLoop, methodsLines, unlines_nil]
  | cons name names ih =>
    cases name with
    | nil => simp [genJSONIterLoop, methodsLines, methodLines, ih]
    | cons c rest =>
      by_cases hi : i = 0 <;>
        simp [genJSONIterLoop, methodsLines, methodLines, ih, hi, output.addln, unlines_append,
          unlines_cons, unlines_nil, bodyJSONIter, methodHeader, Sprintf]

theorem genFmtLoop_buf (i : Nat) (names : List GoString) (o : output) :
    (genFmtLoop i names o).buf = o.buf ++ unlines (methodsLines bodyFmt i names) := by
  induction names generalizing i o with
  | nil => simp [genFmtLoop, methodsLines, unlines_nil]
  | cons name names ih =>
    cases name with
    | nil => simp [genFmtLoop, methodsLines, methodLines, ih]
    | cons c rest =>
      by_cases hi : i = 0 <;>
        simp [genFmtLoop, methodsLines, methodLines, ih, hi, output.addln, unlines_append,
          unlines_cons, unlines_nil, bodyFmt, methodHeader, Sprintf]

theorem genJSON_buf (o : output) :
    o.genJSON.buf = o.buf ++
      unlines (preludeLines o.pkg importJSON ++ methodsLines bodyJSON 0 o.structNames) := by
  simp [output.genJSON, genJSONLoop_buf, output.addln, preludeLines, unlines_append,
    unlines_cons, unlines_nil, importJSON]

theorem genJSONIter_buf (o : output) :
    o.genJSONIter.buf = o.buf ++
      unlines (preludeLines o.pkg importJSONIter ++
        methodsLines bodyJSONIter 0 o.structNames) := by
  simp [output.genJSONIter, genJSONIterLoop_buf, output.addln, preludeLines, unlines_append,
    unlines_cons, unlines_nil, importJSONIter]

theorem genFmt_buf (o : output) :
    o.genFmt.buf = o.buf ++
      unlines (preludeLines o.pkg importFmt ++ methodsLines bodyFmt 0 o.structNames) := by
  simp [output.genFmt, genFmtLoop_buf, output.addln, preludeLines, unlines_append,
    unlines_cons, unlines_nil, importFmt]

/-! ## Lines of the generated text -/

theorem strings_Split_line (l rest : GoString) (h : '\n' ∉ l) :
    strings_Split (l ++ '\n' :: rest) '\n' = l :: strings_Split rest '\n' := by
  induction l with
  | nil => simp [strings_Split]
  | cons c t ih =>
    have hc : c ≠ '\n' := fun e => h (e ▸ List.mem_cons_self _ _)
    have ht : '\n' ∉ t := fun e => h (List.mem_cons_of_mem _ e)
    simp [strings_Split, hc, ih ht]

theorem goLines_unlines (ls : List GoString) (h : ∀ l ∈ ls, '\n' ∉ l) :
    goLines (unlines ls) = ls ++ [[]] := by
  induction ls with
  | nil => simp [goLines, unlines, strings_Split]
  | cons l ls ih =>
    have hl : '\n' ∉ l := h l (List.mem_cons_self _ _)
    have hls : ∀ x ∈ ls, '\n' ∉ x := fun x hx => h x (List.mem_cons_of_mem _ hx)
    have := ih hls
    simp only [goLines] at this
    simp only [goLines, unlines_cons, strings_Split_line l _ hl, this, List.cons_append]

theorem asciiToLower_ne_newline (c : Char) (h : c ≠ '\n') : asciiToLower c ≠ '\n' := by
  unfold asciiToLower
  split
  · rename_i hr
    obtain ⟨h1, h2⟩ := hr
    have h1' : 65 ≤ c.toNat := h1
    have h2' : c.toNat ≤ 90 := h2
    generalize c.toNat = n at h1' h2'
    interval_cases n <;> decide
  · exact h

theorem lowerFirstByte_no_newline (c : Char) (h : c ≠ '\n') : '\n' ∉ lowerFirstByte c := by
  unfold lowerFirstByte
  split
  · simpa using (asciiToLower_ne_newline c h).symm
  · decide

theorem methodHeader_no_newline (name : GoString) (h : '\n' ∉ name) :
    '\n' ∉ methodHeader name := by
  cases name with
  | nil => simp [methodHeader]
  | cons c rest =>
    have hc : c ≠ '\n' := fun e => h (e ▸ List.mem_cons_self _ _)
    have hr : '\n' ∉ rest := fun e => h (List.mem_cons_of_mem _ e)
    have hl := lowerFirstByte_no_newline c hc
    have h1 : '\n' ∉ "func (".toList := by decide
    have h2 : '\n' ∉ " *".toList := by decide
    have h3 : '\n' ∉ ") String() string \x7b".toList := by decide
    simp only [methodHeader, List.mem_append, not_or]
    exact ⟨⟨⟨⟨h1, hl⟩, h2⟩, h⟩, h3⟩

theorem isHeaderLine_methodHeader (c : Char) (rest : GoString) :
    isHeaderLine (methodHeader (c :: rest)) = true := by
  simp only [isHeaderLine, methodHeader, Bool.and_eq_true, List.isPrefixOf_iff_prefix,
    List.isSuffixOf_iff_suffix]
  refine ⟨?_, List.suffix_append _ _⟩
  simp only [List.append_assoc]
  exact List.prefix_append _ _

theorem isHeaderLine_of_head (l : GoString) (h : l.head? ≠ some 'f') :
    isHeaderLine l = false := by
  cases l with
  | nil => rfl
  | cons c t =>
    have hc : c ≠ 'f' := fun e => h (by simp [e])
    have : "func (".toList.isPrefixOf (c :: t) = false := by
      show List.isPrefixOf ('f' :: "unc (".toList) (c :: t) = false
      simp [List.isPrefixOf, Ne.symm hc]
    simp only [isHeaderLine, this, Bool.false_and]

theorem bodyJSON_ok : BodyOk bodyJSON := by
  constructor
  · intro r hr l hl
    have h1 : '\n' ∉ "v, _ := json.Marshal(".toList := by decide
    have h2 : '\n' ∉ ")".toList := by decide
    have h3 : '\n' ∉ "return string(v)".toList := by decide
    simp only [bodyJSON, List.mem_cons, List.mem_singleton, List.not_mem_nil, or_false] at hl
    rcases hl with rfl | rfl
    · simp only [List.mem_append, not_or]; exact ⟨⟨h1, hr⟩, h2⟩
    · exact h3
  · intro r l hl
    simp only [bodyJSON, List.mem_cons, List.mem_singleton, List.not_mem_nil, or_false] at hl
    rcases hl with rfl | rfl
    · exact isHeaderLine_of_head _ (by simp [List.append_assoc])
    · decide

theorem bodyJSONIter_ok : BodyOk bodyJSONIter := by
  constructor
  · intro r hr l hl
    have h1 : '\n' ∉ "v, _ := jsoniter.ConfigCompatibleWithStandardLibrary.Marshal(".toList := by
      decide
    have h2 : '\n' ∉ ")".toList := by decide
    have h3 : '\n' ∉ "return string(v)".toList := by decide
    simp only [bodyJSONIter, List.mem_cons, List.mem_singleton, List.not_mem_nil, or_false] at hl
    rcases hl with rfl | rfl
    · simp only [List.mem_append, not_or]; exact ⟨⟨h1, hr⟩, h2⟩
    · exact h3
  · intro r l hl
    simp only [bodyJSONIter, List.mem_cons, List.mem_singleton, List.not_mem_nil, or_false] at hl
    rcases hl with rfl | rfl
    · exact isHeaderLine_of_head _ (by simp [List.append_assoc])
    · decide

theorem bodyFmt_ok : BodyOk bodyFmt := by
  constructor
  · intro r hr l hl
    have h1 : '\n' ∉ "return fmt.Sprintf(\"%+v\",*".toList := by decide
    have h2 : '\n' ∉ ")".toList := by decide
    simp only [bodyFmt, List.mem_singleton] at hl
    subst hl
    simp only [List.mem_append, not_or]; exact ⟨⟨h1, hr⟩, h2⟩
  · intro r l hl
    simp only [bodyFmt, List.mem_singleton] at hl
    subst hl
    exact isHeaderLine_of_head _ (by simp [List.append_assoc])

theorem methodsLines_no_newline (body : GoString → List GoString) (hb : BodyOk body)
    (i : Nat) (names : List GoString) (hn : ∀ n ∈ names, '\n' ∉ n) :
    ∀ l ∈ methodsLines body i names, '\n' ∉ l := by
  induction names generalizing i with
  | nil => simp [methodsLines]
  | cons name names ih =>
    have hname : '\n' ∉ name := hn name (List.mem_cons_self _ _)
    have hrest : ∀ n ∈ names, '\n' ∉ n := fun n h => hn n (List.mem_cons_of_mem _ h)
    intro l hl
    simp only [methodsLines, List.mem_append] at hl
    rcases hl with hl | hl
    · cases name with
      | nil => simp [methodLines] at hl
      | cons c rest =>
        have hc : c ≠ '\n' := fun e => hname (e ▸ List.mem_cons_self _ _)
        simp only [methodLines, List.mem_append, List.mem_cons, List.mem_singleton,
          List.not_mem_nil, or_false] at hl
        rcases hl with ((hl | hl | hl) | hl) | hl
        · split at hl
          · simp only [List.mem_singleton] at hl; subst hl; simp
          · simp at hl
        · subst hl; decide
        · subst hl; exact methodHeader_no_newline _ hname
        · exact hb.1 _ (lowerFirstByte_no_newline c hc) l hl
        · subst hl; decide
    · exact ih (i + 1) hrest l hl

theorem methodsLines_headers (body : GoString → List GoString) (hb : BodyOk body)
    (i : Nat) (names : List GoString) (hne : ∀ n ∈ names, n ≠ []) :
    (methodsLines body i names).filter isHeaderLine = names.map methodHeader := by
  induction names generalizing i with
  | nil => simp [methodsLines]
  | cons name names ih =>
    have hrest : ∀ n ∈ names, n ≠ [] := fun n h => hne n (List.mem_cons_of_mem _ h)
    cases name with
    | nil => exact absurd rfl (hne [] (List.mem_cons_self _ _))
    | cons c rest =>
      have hbody : (body (lowerFirstByte c)).filter isHeaderLine = [] := by
        rw [List.filter_eq_nil_iff]
        intro l hl
        simp [hb.2 _ l hl]
      have h1 : isHeaderLine "// String Used in fmt to generate string".toList = false := by
        decide
      have h2 : isHeaderLine "\x7d".toList = false := by decide
      have h3 : isHeaderLine [] = false := by decide
      have h4 := isHeaderLine_methodHeader c rest
      simp only [methodsLines, methodLines, List.filter_append, ih (i + 1) hrest, List.map_cons,
        hbody]
      by_cases hi : i = 0 <;>
        simp only [hi, ↓reduceIte, ne_eq, not_true_eq_false, not_false_eq_true,
          List.filter_cons, List.filter_nil, h1, h2, h3, h4, List.nil_append, List.cons_append,
          List.append_nil, Bool.false_eq_true]

theorem preludeLines_no_newline (pkg imp : GoString) (hp : '\n' ∉ pkg) (hi : '\n' ∉ imp) :
    ∀ l ∈ preludeLines pkg imp, '\n' ∉ l := by
  intro l hl
  have h1 : '\n' ∉ "package ".toList := by decide
  have h2 : '\n' ∉ "import (".toList := by decide
  have h3 : '\n' ∉ ")".toList := by decide
  simp only [preludeLines, List.mem_cons, List.mem_singleton, List.not_mem_nil, or_false] at hl
  rcases hl with rfl | rfl | rfl | rfl | rfl | rfl
  · simp only [List.mem_append, not_or]; exact ⟨h1, hp⟩
  · simp
  · exact h2
  · exact hi
  · exact h3
  · simp

theorem preludeLines_headers (pkg imp : GoString) (hi : isHeaderLine imp = false) :
    (preludeLines pkg imp).filter isHeaderLine = [] := by
  have h1 : isHeaderLine ("package ".toList ++ pkg) = false :=
    isHeaderLine_of_head _ (by simp)
  have h2 : isHeaderLine [] = false := by decide
  have h3 : isHeaderLine "import (".toList = false := by decide
  have h4 : isHeaderLine ")".toList = false := by decide
  simp only [preludeLines, List.filter_cons, List.filter_nil, h1, h2, h3, h4, hi, ↓reduceIte,
    Bool.false_eq_true]

theorem text_headers (body : GoString → List GoString) (hb : BodyOk body)
    (pkg imp : GoString) (names : List GoString)
    (hi1 : '\n' ∉ imp) (hi2 : isHeaderLine imp = false)
    (hp : '\n' ∉ pkg) (hn : ∀ n ∈ names, n ≠ [] ∧ '\n' ∉ n) :
    (goLines (unlines (preludeLines pkg imp ++ methodsLines body 0 names))).filter
      isHeaderLine = names.map methodHeader := by
  have hnl : ∀ l ∈ preludeLines pkg imp ++ methodsLines body 0 names, '\n' ∉ l := by
    intro l hl
    rcases List.mem_append.1 hl with h | h
    · exact preludeLines_no_newline pkg imp hp hi1 l h
    · exact methodsLines_no_newline body hb 0 names (fun n h => (hn n h).2) l h
  have h0 : isHeaderLine [] = false := by decide
  rw [goLines_unlines _ hnl]
  simp only [List.filter_append, preludeLines_headers pkg imp hi2,
    methodsLines_headers body hb 0 names (fun n h => (hn n h).1), List.filter_cons,
    List.filter_nil, h0, ↓reduceIte, Bool.false_eq_true, List.nil_append, List.append_nil]

/-- C5: for every list of non-empty struct names and each of the three
strategies, the text built from an empty buffer consists of the package clause and
block of imports followed, name by name in the order of `structNames`, by the lines of
one method whose header is `func (r *Name) String() string {`; and when the names
and the package name contain no line break (as identifiers do not), the lines of
the text that have the shape of a method header are exactly the headers of the
names of `structNames`, one per name and in the same order. -/
theorem gen_headers_in_order (pkg method : GoString) (names : List GoString)
    (hne : ∀ n ∈ names, n ≠ []) :
    let o : output := { buf := [], pkg := pkg, structNames := names, method := method }
    (o.genJSON.buf =
        unlines (preludeLines pkg importJSON ++ methodsLines bodyJSON 0 names) ∧
      o.genJSONIter.buf =
        unlines (preludeLines pkg importJSONIter ++ methodsLines bodyJSONIter 0 names) ∧
      o.genFmt.buf =
        unlines (preludeLines pkg importFmt ++ methodsLines bodyFmt 0 names)) ∧
    ('\n' ∉ pkg → (∀ n ∈ names, '\n' ∉ n) →
      (goLines o.genJSON.buf).filter isHeaderLine = names.map methodHeader ∧
      (goLines o.genJSONIter.buf).filter isHeaderLine = names.map methodHeader ∧
      (goLines o.genFmt.buf).filter isHeaderLine = names.map methodHeader) := by
  intro o
  have e1 : o.genJSON.buf =
      unlines (preludeLines pkg importJSON ++ methodsLines bodyJSON 0 names) := by
    rw [genJSON_buf]; rfl
  have e2 : o.genJSONIter.buf =
      unlines (preludeLines pkg importJSONIter ++ methodsLines bodyJSONIter 0 names) := by
    rw [genJSONIter_buf]; rfl
  have e3 : o.genFmt.buf =
      unlines (preludeLines pkg importFmt ++ methodsLines bodyFmt 0 names) := by
    rw [genFmt_buf]; rfl
  refine ⟨⟨e1, e2, e3⟩, ?_⟩
  intro hp hn
  have hn2 : ∀ n ∈ names, n ≠ [] ∧ '\n' ∉ n := fun n h => ⟨hne n h, hn n h⟩
  rw [e1, e2, e3]
  exact ⟨text_headers bodyJSON bodyJSON_ok pkg importJSON names (by decide) (by decide) hp hn2,
    text_headers bodyJSONIter bodyJSONIter_ok pkg importJSONIter names (by decide) (by decide)
      hp hn2,
    text_headers bodyFmt bodyFmt_ok pkg importFmt names (by decide) (by decide) hp hn2⟩

/-- The theorem of C5 at the names `MyStruct1`, `MyStruct2` of package `main`. -/
theorem gen_headers_in_order_witness :
    (∀ n ∈ ["MyStruct1".toList, "MyStruct2".toList], n ≠ []) ∧
    (goLines (output.genJSON ⟨[], "main".toList, ["MyStruct1".toList, "MyStruct2".toList],
        "json".toList⟩).buf).filter isHeaderLine =
      ["func (m *MyStruct1) String() string \x7b".toList,
        "func (m *MyStruct2) String() string \x7b".toList] :=
  ⟨by decide,
    ((gen_headers_in_order "main".toList "json".toList
      ["MyStruct1".toList, "MyStruct2".toList] (by decide)).2 (by decide) (by decide)).1⟩

/-- C6: for every method string other than `json`, `jsoniter` and `fmt` (the empty
string of a zero-valued `output` among them), whatever the package name and the
struct names are, `gen` returns the error `unknown method: <method>` and no bytes,
and it makes no outside call: the formatter is not called. -/
theorem gen_unknown_method (env : Env) (o : output)
    (h1 : o.method ≠ "json".toList) (h2 : o.method ≠ "jsoniter".toList)
    (h3 : o.method ≠ "fmt".toList) :
    (o.gen env).1 = .error (.errorf ("unknown method: ".toList ++ o.method)) ∧
    (o.gen env).2.2 = [] ∧
    (∀ bytes, (o.gen env).1 ≠ .ok bytes) := by
  have hs : Sprintf "unknown method: %s".toList [o.method] =
      "unknown method: ".toList ++ o.method := by simp [Sprintf]
  have h : (o.gen env).1 = .error (.errorf ("unknown method: ".toList ++ o.method)) := by
    simp only [output.gen, if_neg h1, if_neg h2, if_neg h3, hs]
  refine ⟨h, by simp only [output.gen, if_neg h1, if_neg h2, if_neg h3], ?_⟩
  intro bytes hb
  rw [h] at hb
  cases hb

/-- The theorem of C6 at the zero-valued `output` of `TestOutputGen`, with a
formatter that would accept every text. -/
theorem gen_unknown_method_witness :
    (output.gen acceptingEnv ⟨[], [], [], []⟩).1 = .error (.errorf "unknown method: ".toList) ∧
    (output.gen acceptingEnv ⟨[], [], [], []⟩).2.2 = [] :=
  ⟨(gen_unknown_method acceptingEnv ⟨[], [], [], []⟩ (by decide) (by decide) (by decide)).1,
    (gen_unknown_method acceptingEnv ⟨[], [], [], []⟩ (by decide) (by decide) (by decide)).2.1⟩

/-- C7 as stated fails: `gen` has no check of the list of names. For the method
`json`, package `main` and no name, with a formatter that accepts the text, `gen`
returns bytes and no error. -/
theorem gen_empty_names_counterexample :
    (output.gen acceptingEnv ⟨[], "main".toList, [], "json".toList⟩).1 =
      .ok "package main\n\nimport (\n\"encoding/json\"\n)\n\n".toList ∧
    ¬ ∀ (env : Env) (o : output),
      (o.method = "json".toList ∨ o.method = "jsoniter".toList ∨ o.method = "fmt".toList) →
      o.structNames = [] → ∃ err, (o.gen env).1 = .error err := by
  have hv : (output.gen acceptingEnv ⟨[], "main".toList, [], "json".toList⟩).1 =
      .ok "package main\n\nimport (\n\"encoding/json\"\n)\n\n".toList := by decide
  refine ⟨hv, ?_⟩
  intro h
  obtain ⟨err, he⟩ := h acceptingEnv ⟨[], "main".toList, [], "json".toList⟩ (Or.inl rfl) rfl
  rw [hv] at he
  cases he

/-- C7 (amended): for an `output` with a recognized method and no struct name,
`gen` does not reject the empty list: it builds the package clause and the import
block of the strategy, calls the formatter once on that text and returns what the
formatter returns, so it fails exactly when the formatter fails on that text. -/
theorem gen_empty_names (env : Env) (o : output) (h : o.structNames = []) :
    let text := fun imp => unlines (preludeLines o.pkg imp)
    (o.method = "json".toList →
      (o.gen env).1 = env.Process (text importJSON) ∧
      (o.gen env).2.2 = [Event.Process (text importJSON)]) ∧
    (o.method = "jsoniter".toList →
      (o.gen env).1 = env.Process (text importJSONIter) ∧
      (o.gen env).2.2 = [Event.Process (text importJSONIter)]) ∧
    (o.method = "fmt".toList →
      (o.gen env).1 = env.Process (text importFmt) ∧
      (o.gen env).2.2 = [Event.Process (text importFmt)]) := by
  intro text
  refine ⟨?_, ?_, ?_⟩
  · intro hm
    simp only [output.gen, hm, if_true, genJSON_buf, h, methodsLines, List.append_nil,
      List.nil_append, text, and_self]
  · intro hm
    have hne : ¬ "jsoniter".toList = "json".toList := by decide
    simp only [output.gen, hm, hne, if_true, if_false, genJSONIter_buf, h, methodsLines,
      List.append_nil, List.nil_append, text, and_self]
  · intro hm
    have hne1 : ¬ "fmt".toList = "json".toList := by decide
    have hne2 : ¬ "fmt".toList = "jsoniter".toList := by decide
    simp only [output.gen, hm, hne1, hne2, if_true, if_false, genFmt_buf, h, methodsLines,
      List.append_nil, List.nil_append, text, and_self]

/-- The theorem of C7 (amended) at the method `fmt`, package `main`, no name. -/
theorem gen_empty_names_witness :
    (output.gen acceptingEnv ⟨[], "main".toList, [], "fmt".toList⟩).1 =
      .ok "package main\n\nimport (\n\"fmt\"\n)\n\n".toList :=
  ((gen_empty_names acceptingEnv ⟨[], "main".toList, [], "fmt".toList⟩ rfl).2.2 rfl).1

/-- C9: for every package name `p` and every non-empty struct name `N` (first
character `c`), with `r` the lower-cased first byte of `N`, `genJSON` on an output
with that package, the one name `N` and an empty buffer leaves in the buffer
exactly the listed lines, each followed by a newline. -/
theorem genJSON_single (p method : GoString) (c : Char) (rest : GoString) :
    let N := c :: rest
    let r := lowerFirstByte c
    (output.genJSON { buf := [], pkg := p, structNames := [N], method := method }).buf =
      unlines
        ["package ".toList ++ p,
         "".toList,
         "import (".toList,
         "\"encoding/json\"".toList,
         ")".toList,
         "".toList,
         "// String Used in fmt to generate string".toList,
         "func (".toList ++ r ++ " *".toList ++ N ++ ") String() string \x7b".toList,
         "v, _ := json.Marshal(".toList ++ r ++ ")".toList,
         "return string(v)".toList,
         "\x7d".toList] := by
  intro N r
  rw [genJSON_buf]
  simp [preludeLines, methodsLines, methodLines, bodyJSON, methodHeader, importJSON, N, r]

/-- C10: for every package name `p` and every non-empty struct name `N` (first
character `c`), with `r` the lower-cased first byte of `N`, `genFmt` on an output
with that package, the one name `N` and an empty buffer leaves in the buffer
exactly the listed lines, each followed by a newline; the verb of the emitted call
is the single literal `%+v`. -/
theorem genFmt_single (p method : GoString) (c : Char) (rest : GoString) :
    let N := c :: rest
    let r := lowerFirstByte c
    (output.genFmt { buf := [], pkg := p, structNames := [N], method := method }).buf =
      unlines
        ["package ".toList ++ p,
         "".toList,
         "import (".toList,
         "\"fmt\"".toList,
         ")".toList,
         "".toList,
         "// String Used in fmt to generate string".toList,
         "func (".toList ++ r ++ " *".toList ++ N ++ ") String() string \x7b".toList,
         "return fmt.Sprintf(\"%+v\",*".toList ++ r ++ ")".toList,
         "\x7d".toList] := by
  intro N r
  rw [genFmt_buf]
  simp [preludeLines, methodsLines, methodLines, bodyFmt, methodHeader, importFmt, N, r]

/-! ## One source file (`genSource`) -/

theorem debuger_Printf_quiet (env : Env) (format : GoString) (args : List Arg) :
    ∀ e ∈ debuger_Printf env format args, e.isOutput = false := by
  intro e he
  unfold debuger_Printf at he
  split at he
  · simp only [List.mem_singleton] at he; subst he; rfl
  · simp at he

theorem debuger_Printf_off (env : Env) (h : env.debug = false) (format : GoString)
    (args : List Arg) : debuger_Printf env format args = [] := by
  simp [debuger_Printf, h]

theorem parseSpecs_snd (env : Env) (rules : List Regexp) (specs : List Spec)
    (out : output) (evs : List Event) :
    ((∀ e ∈ evs, e.isOutput = false) →
      ∀ e ∈ (parseSpecs env rules specs (out, evs)).2, e.isOutput = false) ∧
    (env.debug = false → (parseSpecs env rules specs (out, evs)).2 = evs) := by
  induction specs generalizing out evs with
  | nil => simp [parseSpecs]
  | cons spec specs ih =>
    cases spec with
    | ImportSpec p => simpa [parseSpecs] using ih out evs
    | ValueSpec ns => simpa [parseSpecs] using ih out evs
    | TypeSpec name assign type =>
      cases type <;> try (simpa [parseSpecs] using ih out evs)
      simp only [parseSpecs]
      split
      · exact ih _ evs
      · constructor
        · intro h
          refine (ih out _).1 ?_
          intro e he
          rcases List.mem_append.1 he with he | he
          · exact h e he
          · exact debuger_Printf_quiet _ _ _ e he
        · intro hd
          rw [(ih out _).2 hd, debuger_Printf_off env hd, List.append_nil]

theorem parseDecls_snd (env : Env) (rules : List Regexp) (decls : List Decl)
    (st : output × List Event) :
    ((∀ e ∈ st.2, e.isOutput = false) →
      ∀ e ∈ (parseDecls env rules decls st).2, e.isOutput = false) ∧
    (env.debug = false → (parseDecls env rules decls st).2 = st.2) := by
  induction decls generalizing st with
  | nil => simp [parseDecls]
  | cons decl decls ih =>
    obtain ⟨out, evs⟩ := st
    cases decl with
    | BadDecl => simpa [parseDecls] using ih (out, evs)
    | FuncDecl n => simpa [parseDecls] using ih (out, evs)
    | GenDecl tok specs =>
      cases tok <;> try (simpa [parseDecls] using ih (out, evs))
      simp only [parseDecls, ne_eq, not_true_eq_false, if_false]
      have hs := parseSpecs_snd env rules specs out evs
      have hd := ih (parseSpecs env rules specs (out, evs))
      constructor
      · intro h
        exact hd.1 (hs.1 h)
      · intro hdbg
        rw [hd.2 hdbg, hs.2 hdbg]

theorem parseFile_snd (env : Env) (file : File) (rules : List Regexp) (method : GoString) :
    (∀ e ∈ (parseFile env file rules method).2, e.isOutput = false) ∧
    (env.debug = false → (parseFile env file rules method).2 = []) := by
  have h := parseDecls_snd env rules file.Decls
    ({ buf := [], pkg := file.Name, structNames := [], method := method }, [])
  constructor
  · exact h.1 (by simp)
  · intro hd
    exact h.2 hd

/-- C8: for every source name with extension `.go` whose file parses and for
which `parseFile` returns an empty list of names, `genSource` returns nil, whatever
the method (recognized or not) and the destination are, and among its outside
calls there is no call of the formatter (the only outside call of `gen`), no
creation of a file and no write of output; without debug output its only outside
call is the parse of the source file. -/
theorem genSource_no_structs (env : Env) (source destination : GoString)
    (exclRes : List Regexp) (method : GoString) (file : File) (out : output)
    (hext : filepath_Ext source = ".go".toList)
    (hfile : env.ParseFile source = .ok file)
    (hout : (parseFile env file exclRes method).1 = .ok out)
    (hnames : out.structNames = []) :
    (genSource env source destination exclRes method).1 = none ∧
    (∀ e ∈ (genSource env source destination exclRes method).2, e.isOutput = false) ∧
    (env.debug = false →
      (genSource env source destination exclRes method).2 = [Event.ParseFile source]) := by
  have hp : parseFile env file exclRes method =
      (.ok out, (parseFile env file exclRes method).2) := by
    rw [← hout]
  have hq := parseFile_snd env file exclRes method
  have hgen : genSource env source destination exclRes method =
      (none, debuger_Printf env (blue ++ "Handle %s start...".toList ++ reset) [.str source] ++
        [Event.ParseFile source] ++
        debuger_Printf env "Read Go file %s success".toList [.str source] ++
        (parseFile env file exclRes method).2 ++
        debuger_Printf env "Parse Go file %s success get structs=%v".toList
          [.str source, .strs out.structNames] ++
        debuger_Printf env (yellow ++ "NO STRUCT IN FILE: %s".toList ++ reset) [.str source]) := by
    unfold genSource
    rw [if_neg (by rw [hext]; simp)]
    simp only [readGOFile, hfile]
    rw [hp]
    simp only [hnames, List.length_nil, if_true]
  rw [hgen]
  refine ⟨rfl, ?_, ?_⟩
  · intro e he
    simp only [List.mem_append, List.mem_singleton] at he
    rcases he with ((((he | he) | he) | he) | he) | he
    · exact debuger_Printf_quiet _ _ _ e he
    · subst he; rfl
    · exact debuger_Printf_quiet _ _ _ e he
    · exact hq.1 e he
    · exact debuger_Printf_quiet _ _ _ e he
    · exact debuger_Printf_quiet _ _ _ e he
  · intro hd
    simp [debuger_Printf_off env hd, hq.2 hd]

/-- The theorem of C8 at the file `package main; type A struct { X int }` read
from `a.go`, with the exclusion pattern `A`, the method `fmt` and the destination
`out.go`. -/
theorem genSource_no_structs_witness :
    (genSource exampleEnv "a.go".toList "out.go".toList [⟨"A".toList, .lit 'A'⟩]
        "fmt".toList).1 = none ∧
    (genSource exampleEnv "a.go".toList "out.go".toList [⟨"A".toList, .lit 'A'⟩]
        "fmt".toList).2.all (fun e => !e.isOutput) = true :=
  ⟨(genSource_no_structs exampleEnv "a.go".toList "out.go".toList [⟨"A".toList, .lit 'A'⟩]
      "fmt".toList exampleFile ⟨[], "main".toList, [], "fmt".toList⟩
      (by decide) rfl (by decide) rfl).1,
    by decide⟩

/-! ## Further properties -/

/-- For every package name `p` and every non-empty struct name `N` (first
character `c`), with `r` the lower-cased first byte of `N`, `genJSONIter` on an
output with that package, the one name `N` and an empty buffer leaves in the buffer
exactly the listed lines, each followed by a newline. -/
theorem genJSONIter_single (p method : GoString) (c : Char) (rest : GoString) :
    let N := c :: rest
    let r := lowerFirstByte c
    (output.genJSONIter { buf := [], pkg := p, structNames := [N], method := method }).buf =
      unlines
        ["package ".toList ++ p,
         "".toList,
         "import (".toList,
         "jsoniter \"github.com/json-iterator/go\"".toList,
         ")".toList,
         "".toList,
         "// String Used in fmt to generate string".toList,
         "func (".toList ++ r ++ " *".toList ++ N ++ ") String() string \x7b".toList,
         "v, _ := jsoniter.ConfigCompatibleWithStandardLibrary.Marshal(".toList ++ r ++
           ")".toList,
         "return string(v)".toList,
         "\x7d".toList] := by
  intro N r
  rw [genJSONIter_buf]
  simp [preludeLines, methodsLines, methodLines, bodyJSONIter, methodHeader, importJSONIter,
    N, r]

/-- A source name whose extension is not `.go` is skipped: `genSource` returns nil
and makes no outside call but debug output; the file is not even parsed. -/
theorem genSource_not_go (env : Env) (source destination : GoString)
    (exclRes : List Regexp) (method : GoString)
    (hext : filepath_Ext source ≠ ".go".toList) :
    (genSource env source destination exclRes method).1 = none ∧
    (∀ e ∈ (genSource env source destination exclRes method).2,
      ∃ format args, e = Event.Printf format args) ∧
    (env.debug = false → (genSource env source destination exclRes method).2 = []) := by
  have hgen : genSource env source destination exclRes method =
      (none, debuger_Printf env (blue ++ "Handle %s start...".toList ++ reset) [.str source] ++
        debuger_Printf env (yellow ++ "NOT GO FILE: %s".toList ++ reset) [.str source]) := by
    unfold genSource
    rw [if_pos hext]
  rw [hgen]
  refine ⟨rfl, ?_, ?_⟩
  · intro e he
    simp only [List.mem_append, debuger_Printf] at he
    rcases he with he | he <;> split at he <;> simp at he <;> exact ⟨_, _, he⟩
  · intro hd
    simp [debuger_Printf_off env hd]

/-- The theorem `genSource_not_go` at the source name `README.md`. -/
theorem genSource_not_go_witness :
    (genSource exampleEnv "README.md".toList [] [] "json".toList).1 = none :=
  (genSource_not_go exampleEnv "README.md".toList [] [] "json".toList (by decide)).1

/-- A source file that does not parse makes `genSource` fail with the error
`failed parsing source file <source>: <parser error>`, after the parse as the only
outside call but debug output. -/
theorem genSource_parse_error (env : Env) (source destination : GoString)
    (exclRes : List Regexp) (method : GoString) (err : Error)
    (hext : filepath_Ext source = ".go".toList)
    (hfile : env.ParseFile source = .error err) :
    (genSource env source destination exclRes method).1 =
      some (.errorf ("failed parsing source file ".toList ++ source ++ ": ".toList ++
        err.errorText)) ∧
    (∀ e ∈ (genSource env source destination exclRes method).2, e.isOutput = false) := by
  have hs : Sprintf "failed parsing source file %v: %v".toList [source, err.errorText] =
      "failed parsing source file ".toList ++ source ++ ": ".toList ++ err.errorText := by
    simp [Sprintf]
  have hgen : genSource env source destination exclRes method =
      (some (.errorf ("failed parsing source file ".toList ++ source ++ ": ".toList ++
        err.errorText)),
        debuger_Printf env (blue ++ "Handle %s start...".toList ++ reset) [.str source] ++
        [Event.ParseFile source]) := by
    unfold genSource
    rw [if_neg (by rw [hext]; simp)]
    simp only [readGOFile, hfile, hs]
  rw [hgen]
  refine ⟨rfl, ?_⟩
  intro e he
  simp only [List.mem_append, List.mem_singleton] at he
  rcases he with he | he
  · exact debuger_Printf_quiet _ _ _ e he
  · subst he; rfl

/-- The theorem `genSource_parse_error` at the source name `a.go`, in an
environment in which no file parses. -/
theorem genSource_parse_error_witness :
    (genSource quietEnv "a.go".toList [] [] "json".toList).1 =
      some (.errorf "failed parsing source file a.go: ".toList) :=
  (genSource_parse_error quietEnv "a.go".toList [] [] "json".toList (.external [])
    (by decide) rfl).1

theorem gen_events (env : Env) (o : output) :
    ∀ e ∈ (o.gen env).2.2, e.isFileOp = false := by
  intro e he
  by_cases h1 : o.method = "json".toList
  · simp only [output.gen, if_pos h1, List.mem_singleton] at he; subst he; rfl
  · by_cases h2 : o.method = "jsoniter".toList
    · simp only [output.gen, if_neg h1, if_pos h2, List.mem_singleton] at he; subst he; rfl
    · by_cases h3 : o.method = "fmt".toList
      · simp only [output.gen, if_neg h1, if_neg h2, if_pos h3, List.mem_singleton] at he
        subst he; rfl
      · simp only [output.gen, if_neg h1, if_neg h2, if_neg h3, List.not_mem_nil] at he

theorem filter_isFileOp_nil (l : List Event) (h : ∀ e ∈ l, e.isFileOp = false) :
    l.filter Event.isFileOp = [] := by
  rw [List.filter_eq_nil_iff]
  intro e he
  simp [h e he]

theorem isFileOp_of_isOutput (e : Event) (h : e.isOutput = false) : e.isFileOp = false := by
  cases e <;> simp_all [Event.isOutput, Event.isFileOp]

/-- When the file parses, `parseFile` keeps at least one name, `gen` returns
bytes, and the destination can be opened and written, `genSource` returns nil and
its file operations are, in order: the creation of the destination file, unless
the destination name is empty (standard output), and one write of exactly those
bytes to the destination. -/
theorem genSource_writes (env : Env) (source destination : GoString)
    (exclRes : List Regexp) (method : GoString) (file : File) (out : output)
    (bytes : GoString)
    (hext : filepath_Ext source = ".go".toList)
    (hfile : env.ParseFile source = .ok file)
    (hout : (parseFile env file exclRes method).1 = .ok out)
    (hnames : out.structNames ≠ [])
    (hgen : (out.gen env).1 = .ok bytes)
    (hcreate : destination ≠ [] → env.Create destination = none)
    (hwrite : env.Write (if destination = [] then .Stdout else .File destination) bytes = none) :
    (genSource env source destination exclRes method).1 = none ∧
    (genSource env source destination exclRes method).2.filter Event.isFileOp =
      (if destination = [] then [] else [Event.Create destination]) ++
        [Event.Write (if destination = [] then .Stdout else .File destination) bytes] := by
  have hp : parseFile env file exclRes method =
      (.ok out, (parseFile env file exclRes method).2) := by
    rw [← hout]
  have hg : out.gen env = (.ok bytes, (out.gen env).2.1, (out.gen env).2.2) := by
    rw [← hgen]
  have hlen : ¬ out.structNames.length = 0 := by
    simpa [List.length_eq_zero] using hnames
  have hD : ∀ f a, (debuger_Printf env f a).filter Event.isFileOp = [] :=
    fun f a => filter_isFileOp_nil _
      (fun e he => isFileOp_of_isOutput e (debuger_Printf_quiet env f a e he))
  have hP : (parseFile env file exclRes method).2.filter Event.isFileOp = [] :=
    filter_isFileOp_nil _
      (fun e he => isFileOp_of_isOutput e ((parseFile_snd env file exclRes method).1 e he))
  have hG : (out.gen env).2.2.filter Event.isFileOp = [] :=
    filter_isFileOp_nil _ (gen_events env out)
  unfold genSource
  rw [if_neg (by rw [hext]; simp)]
  simp only [readGOFile, hfile]
  rw [hp]
  simp only [hlen, if_false]
  rw [hg]
  by_cases hd : destination = []
  · subst hd
    simp only [if_true] at hwrite ⊢
    simp only [getDstFile, if_true, hwrite, List.filter_append, hD, hP, hG, List.nil_append,
      List.append_nil]
    simp [List.filter_cons, Event.isFileOp]
  · simp only [hd, if_false] at hwrite ⊢
    simp only [getDstFile, hd, if_false, hcreate hd, hwrite, List.filter_append, hD, hP, hG,
      List.nil_append, List.append_nil]
    simp [List.filter_cons, Event.isFileOp]

/-- The theorem `genSource_writes` at the file `package main; type A struct { X
int }` read from `a.go`, no exclusion, the method `fmt` and the destination
`out.go`. -/
theorem genSource_writes_witness :
    (genSource exampleEnv "a.go".toList "out.go".toList [] "fmt".toList).1 = none ∧
    (genSource exampleEnv "a.go".toList "out.go".toList [] "fmt".toList).2.filter
        Event.isFileOp =
      [Event.Create "out.go".toList,
        Event.Write (.File "out.go".toList)
          "package main\n\nimport (\n\"fmt\"\n)\n\n// String Used in fmt to generate string\nfunc (a *A) String() string \x7b\nreturn fmt.Sprintf(\"%+v\",*a)\n\x7d\n".toList] :=
  genSource_writes exampleEnv "a.go".toList "out.go".toList [] "fmt".toList exampleFile
    ⟨[], "main".toList, ["A".toList], "fmt".toList⟩ _
    (by decide) rfl (by decide) (by decide) (by decide) (fun _ => rfl) (by decide)

/-! ## Splitting at commas (`strings.Split`, `parseSkipDir`, `compileExcl`) -/

theorem strings_Split_ne_nil (s : GoString) (sep : Char) : strings_Split s sep ≠ [] := by
  induction s with
  | nil => simp [strings_Split]
  | cons c t ih =>
    unfold strings_Split
    split
    · simp
    · split <;> simp

theorem intercalate_cons_cons (sep a b : GoString) (l : List GoString) :
    List.intercalate sep (a :: b :: l) = a ++ sep ++ List.intercalate sep (b :: l) := by
  simp [List.intercalate, List.intersperse]

theorem intercalate_singleton (sep a : GoString) : List.intercalate sep [a] = a := by
  simp [List.intercalate, List.intersperse]

theorem strings_Split_cons_sep (t : GoString) (sep : Char) :
    strings_Split (sep :: t) sep = [] :: strings_Split t sep := by
  simp [strings_Split]

theorem strings_Split_cons_ne (c : Char) (t : GoString) (sep : Char) (h : c ≠ sep)
    (seg : GoString) (segs : List GoString) (ht : strings_Split t sep = seg :: segs) :
    strings_Split (c :: t) sep = (c :: seg) :: segs := by
  simp [strings_Split, h, ht]

theorem intercalate_strings_Split (s : GoString) (sep : Char) :
    List.intercalate [sep] (strings_Split s sep) = s := by
  induction s with
  | nil => simp [strings_Split, intercalate_singleton]
  | cons c t ih =>
    by_cases h : c = sep
    · subst h
      rw [strings_Split_cons_sep]
      obtain ⟨seg, segs, hs⟩ := List.exists_cons_of_ne_nil (strings_Split_ne_nil t c)
      rw [hs] at ih ⊢
      rw [intercalate_cons_cons, ih]
      rfl
    · obtain ⟨seg, segs, hs⟩ := List.exists_cons_of_ne_nil (strings_Split_ne_nil t sep)
      rw [strings_Split_cons_ne c t sep h seg segs hs]
      rw [hs] at ih
      cases segs with
      | nil =>
        rw [intercalate_singleton] at ih ⊢
        rw [ih]
      | cons seg2 segs2 =>
        rw [intercalate_cons_cons] at ih ⊢
        simp only [List.cons_append, ih]

theorem strings_Split_no_sep (s : GoString) (sep : Char) :
    ∀ seg ∈ strings_Split s sep, sep ∉ seg := by
  induction s with
  | nil => simp [strings_Split]
  | cons c t ih =>
    by_cases h : c = sep
    · subst h
      rw [strings_Split_cons_sep]
      intro seg hseg
      rcases List.mem_cons.1 hseg with rfl | hseg
      · simp
      · exact ih seg hseg
    · obtain ⟨seg0, segs, hs⟩ := List.exists_cons_of_ne_nil (strings_Split_ne_nil t sep)
      rw [strings_Split_cons_ne c t sep h seg0 segs hs]
      rw [hs] at ih
      intro seg hseg
      rcases List.mem_cons.1 hseg with rfl | hseg
      · have := ih seg0 (List.mem_cons_self _ _)
        simp only [List.mem_cons, not_or]
        exact ⟨Ne.symm h, this⟩
      · exact ih seg (List.mem_cons_of_mem _ hseg)

theorem strings_Split_append_sep (a rest : GoString) (sep : Char) (h : sep ∉ a) :
    strings_Split (a ++ sep :: rest) sep = a :: strings_Split rest sep := by
  induction a with
  | nil => simp [strings_Split]
  | cons c t ih =>
    have hc : c ≠ sep := fun e => h (e ▸ List.mem_cons_self _ _)
    have ht : sep ∉ t := fun e => h (List.mem_cons_of_mem _ e)
    simp [strings_Split, hc, ih ht]

theorem strings_Split_intercalate (segs : List GoString) (sep : Char) (hne : segs ≠ [])
    (h : ∀ seg ∈ segs, sep ∉ seg) :
    strings_Split (List.intercalate [sep] segs) sep = segs := by
  induction segs with
  | nil => exact absurd rfl hne
  | cons a l ih =>
    cases l with
    | nil =>
      rw [intercalate_singleton]
      exact strings_Split_of_not_mem a sep (h a (List.mem_cons_self _ _))
    | cons b l =>
      rw [intercalate_cons_cons]
      have ha : sep ∉ a := h a (List.mem_cons_self _ _)
      have := ih (by simp) (fun seg hseg => h seg (List.mem_cons_of_mem _ hseg))
      rw [List.append_assoc, List.singleton_append, strings_Split_append_sep a _ sep ha, this]

theorem strings_Split_length (s : GoString) (sep : Char) :
    (strings_Split s sep).length = s.count sep + 1 := by
  induction s with
  | nil => simp [strings_Split]
  | cons c t ih =>
    by_cases h : c = sep
    · subst h
      rw [strings_Split_cons_sep]
      simp [ih]
    · obtain ⟨seg0, segs, hs⟩ := List.exists_cons_of_ne_nil (strings_Split_ne_nil t sep)
      rw [strings_Split_cons_ne c t sep h seg0 segs hs]
      rw [hs] at ih
      simp only [List.length_cons] at ih ⊢
      rw [ih, List.count_cons_of_ne (Ne.symm h)]

theorem regexp_Compile_expr (lib : RegexpLib) (s : GoString) (re : Regexp)
    (h : regexp_Compile lib s = .ok re) : re.expr = s := by
  unfold regexp_Compile at h
  simp only at h
  split at h
  · cases h
  · cases h; rfl

theorem regexp_Compile_lib (lib : RegexpLib) (expr : GoString)
    (h : withinLimits expr = false ∨ parseLoop expr false false ⟨[], []⟩ [] = .other) :
    regexp_Compile lib expr =
      match lib expr with
      | .error code => .error (.regexpSyntax code)
      | .ok re => .ok ⟨expr, re⟩ := by
  unfold regexp_Compile
  rcases h with h | h
  · simp [h]
  · by_cases hw : withinLimits expr = true
    · simp [hw, h]
    · simp [hw]

theorem compileExclLoop_eq (lib : RegexpLib) (segs : List GoString) (acc : List Regexp) :
    compileExclLoop lib segs acc =
      match compileSegments lib segs with
      | .error err => .error err
      | .ok res => .ok (acc ++ res) := by
  induction segs generalizing acc with
  | nil => simp [compileExclLoop, compileSegments]
  | cons seg segs ih =>
    simp only [compileExclLoop, compileSegments]
    cases hc : regexp_Compile lib seg with
    | error err => rfl
    | ok re =>
      simp only [ih]
      cases compileSegments lib segs with
      | error err => rfl
      | ok res => simp

theorem compileExcl_eq_ref (lib : RegexpLib) (excl : GoString) :
    compileExcl lib excl = compileExclRef lib excl := by
  unfold compileExcl compileExclRef
  by_cases h : excl = []
  · simp [h]
  · simp only [ne_eq, h, not_false_eq_true, if_true, if_false, compileExclLoop_eq]
    cases compileSegments lib (strings_Split excl ',') with
    | error err => rfl
    | ok res => simp

theorem compileSegments_cons_ok (lib : RegexpLib) (seg : GoString) (segs : List GoString)
    (re : Regexp) (h : regexp_Compile lib seg = .ok re) :
    compileSegments lib (seg :: segs) =
      match compileSegments lib segs with
      | .error err => .error err
      | .ok res => .ok (re :: res) := by
  simp only [compileSegments, h]

theorem compileSegments_cons_error (lib : RegexpLib) (seg : GoString) (segs : List GoString)
    (err : Error) (h : regexp_Compile lib seg = .error err) :
    compileSegments lib (seg :: segs) = .error err := by
  simp only [compileSegments, h]

theorem compileSegments_ok (lib : RegexpLib) (segs : List GoString)
    (h : ∀ seg ∈ segs, ∃ re, regexp_Compile lib seg = .ok re) :
    ∃ rules, compileSegments lib segs = .ok rules ∧
      List.Forall₂ (fun seg re => regexp_Compile lib seg = .ok re ∧ re.expr = seg)
        segs rules := by
  induction segs with
  | nil => exact ⟨[], rfl, List.Forall₂.nil⟩
  | cons seg segs ih =>
    obtain ⟨re, hre⟩ := h seg (List.mem_cons_self _ _)
    obtain ⟨rules, hr, hf⟩ := ih (fun s hs => h s (List.mem_cons_of_mem _ hs))
    refine ⟨re :: rules, ?_, List.Forall₂.cons ⟨hre, regexp_Compile_expr lib seg re hre⟩ hf⟩
    simp [compileSegments, hre, hr]

theorem compileSegments_error (lib : RegexpLib) (segs : List GoString)
    (h : ∃ seg ∈ segs, ∃ err, regexp_Compile lib seg = .error err) :
    ∃ err, compileSegments lib segs = .error err := by
  induction segs with
  | nil => simp at h
  | cons seg segs ih =>
    cases hc : regexp_Compile lib seg with
    | error err => exact ⟨err, by simp [compileSegments, hc]⟩
    | ok re =>
      obtain ⟨s, hs, err, he⟩ := h
      rcases List.mem_cons.1 hs with rfl | hs
      · rw [hc] at he; cases he
      · obtain ⟨err2, h2⟩ := ih ⟨s, hs, err, he⟩
        exact ⟨err2, by simp [compileSegments, hc, h2]⟩

theorem compileSegments_mem (lib : RegexpLib) (segs : List GoString) (rules : List Regexp)
    (h : compileSegments lib segs = .ok rules) :
    ∀ seg ∈ segs, ∃ re ∈ rules, regexp_Compile lib seg = .ok re := by
  induction segs generalizing rules with
  | nil => simp
  | cons seg segs ih =>
    simp only [compileSegments] at h
    cases hc : regexp_Compile lib seg with
    | error err => rw [hc] at h; cases h
    | ok re =>
      rw [hc] at h
      cases hs : compileSegments lib segs with
      | error err => rw [hs] at h; cases h
      | ok res =>
        rw [hs] at h
        cases h
        intro s hmem
        rcases List.mem_cons.1 hmem with rfl | hmem
        · exact ⟨re, List.mem_cons_self _ _, hc⟩
        · obtain ⟨r, hr, hrc⟩ := ih res hs s hmem
          exact ⟨r, List.mem_cons_of_mem _ hr, hrc⟩

/-- C11: `compileExcl` equals its reference definition, whatever the library
answers for the expressions left to it. For the empty string it returns no pattern
and no error. For a non-empty string made of the segments `segs` joined by commas
(no comma inside a segment): if every segment is a valid regular expression (one
that `regexp.Compile` compiles) it returns one compiled pattern per segment, in
segment order, each compiled from its segment and with that segment, untrimmed, as
source text; if some segment is not valid it returns an error and no list. The
cases of the tests `foo,bar`, `foo,(` and the blank are instances. For an
expression that the model does not read (`[A-Z]+` is one) the result of
`regexp.Compile` is the answer of the library: `compileExcl` returns the pattern
the library compiles, or the error it reports. -/
theorem compileExcl_reference (lib : RegexpLib) :
    (∀ excl, compileExcl lib excl = compileExclRef lib excl) ∧
    compileExcl lib [] = .ok [] ∧
    (∀ segs : List GoString, segs ≠ [] → (∀ seg ∈ segs, ',' ∉ seg) →
      List.intercalate [','] segs ≠ [] →
      ((∀ seg ∈ segs, ∃ re, regexp_Compile lib seg = .ok re) →
        ∃ rules, compileExcl lib (List.intercalate [','] segs) = .ok rules ∧
          List.Forall₂ (fun seg re => regexp_Compile lib seg = .ok re ∧ re.expr = seg)
            segs rules) ∧
      ((∃ seg ∈ segs, ∃ err, regexp_Compile lib seg = .error err) →
        ∃ err, compileExcl lib (List.intercalate [','] segs) = .error err)) ∧
    (∃ rules, compileExcl lib "foo,bar".toList = .ok rules ∧
      rules.map Regexp.expr = ["foo".toList, "bar".toList]) ∧
    compileExcl lib "foo,(".toList = .error (.regexpSyntax .ErrMissingParen) ∧
    (∃ rules, compileExcl lib " ".toList = .ok rules ∧
      rules.map Regexp.expr = [" ".toList]) ∧
    (∀ expr : GoString,
      withinLimits expr = false ∨ parseLoop expr false false ⟨[], []⟩ [] = .other →
      regexp_Compile lib expr =
        match lib expr with
        | .error code => .error (.regexpSyntax code)
        | .ok re => .ok ⟨expr, re⟩) ∧
    (∀ prog, lib "[A-Z]+".toList = .ok prog →
      compileExcl lib "foo,[A-Z]+".toList =
        .ok [⟨"foo".toList, concatAll ("foo".toList.map Regex.lit)⟩,
          ⟨"[A-Z]+".toList, prog⟩]) ∧
    (∀ code, lib "[A-Z]+".toList = .error code →
      compileExcl lib "foo,[A-Z]+".toList = .error (.regexpSyntax code)) := by
  refine ⟨compileExcl_eq_ref lib, rfl, ?_, ⟨_, rfl, by decide⟩, rfl, ⟨_, rfl, by decide⟩,
    regexp_Compile_lib lib, ?_, ?_⟩
  · intro segs hne hcomma hexcl
    have hsplit := strings_Split_intercalate segs ',' hne hcomma
    constructor
    · intro hvalid
      obtain ⟨rules, hr, hf⟩ := compileSegments_ok lib segs hvalid
      refine ⟨rules, ?_, hf⟩
      rw [compileExcl_eq_ref]
      simp only [compileExclRef, hexcl, if_false, hsplit, hr]
    · intro hbad
      obtain ⟨err, he⟩ := compileSegments_error lib segs hbad
      refine ⟨err, ?_⟩
      rw [compileExcl_eq_ref]
      simp only [compileExclRef, hexcl, if_false, hsplit, he]
  · intro prog h
    have h1 : regexp_Compile lib "foo".toList =
        .ok ⟨"foo".toList, concatAll ("foo".toList.map Regex.lit)⟩ := rfl
    have h2 : regexp_Compile lib "[A-Z]+".toList = .ok ⟨"[A-Z]+".toList, prog⟩ := by
      rw [regexp_Compile_lib lib _ (Or.inr (by decide)), h]
    have hs : strings_Split "foo,[A-Z]+".toList ',' = ["foo".toList, "[A-Z]+".toList] := by
      decide
    rw [compileExcl_eq_ref, compileExclRef, if_neg (by decide), hs,
      compileSegments_cons_ok lib _ _ _ h1, compileSegments_cons_ok lib _ _ _ h2]
    rfl
  · intro code h
    have h1 : regexp_Compile lib "foo".toList =
        .ok ⟨"foo".toList, concatAll ("foo".toList.map Regex.lit)⟩ := rfl
    have h2 : regexp_Compile lib "[A-Z]+".toList = .error (.regexpSyntax code) := by
      rw [regexp_Compile_lib lib _ (Or.inr (by decide)), h]
    have hs : strings_Split "foo,[A-Z]+".toList ',' = ["foo".toList, "[A-Z]+".toList] := by
      decide
    rw [compileExcl_eq_ref, compileExclRef, if_neg (by decide), hs,
      compileSegments_cons_ok lib _ _ _ h1, compileSegments_cons_error lib _ _ _ h2]

/-- The theorem of C11 at the segments `^foo$`, `\d+` of the tests and `[A-Z]+`,
for a library that compiles `[A-Z]+`. -/
theorem compileExcl_reference_witness :
    ∃ rules, compileExcl capitalsLib "^foo$,\\d+,[A-Z]+".toList = .ok rules ∧
      List.Forall₂ (fun seg re => regexp_Compile capitalsLib seg = .ok re ∧ re.expr = seg)
        ["^foo$".toList, "\\d+".toList, "[A-Z]+".toList] rules :=
  ((compileExcl_reference capitalsLib).2.2.1
    ["^foo$".toList, "\\d+".toList, "[A-Z]+".toList] (by decide) (by decide)
    (by decide)).1 (fun seg hs => by
      rcases List.mem_cons.1 hs with rfl | hs
      · exact ⟨_, rfl⟩
      · rcases List.mem_cons.1 hs with rfl | hs
        · exact ⟨_, rfl⟩
        · rcases List.mem_cons.1 hs with rfl | hs
          · exact ⟨_, rfl⟩
          · cases hs)

theorem search_empty (prev : Option Char) (name : GoString) :
    Regex.empty.search prev name = true := by
  cases name <;> simp [Regex.search, Regex.matchK]

theorem nil_mem_tail_strings_Split (a b : GoString) (sep : Char)
    (hb : b = [] ∨ b.head? = some sep) :
    [] ∈ (strings_Split (a ++ sep :: b) sep).tail := by
  induction a with
  | nil =>
    rw [List.nil_append, strings_Split_cons_sep, List.tail_cons]
    rcases hb with rfl | hb
    · simp [strings_Split]
    · cases b with
      | nil => simp at hb
      | cons c t =>
        simp only [List.head?_cons, Option.some.injEq] at hb
        subst hb
        rw [strings_Split_cons_sep]
        exact List.mem_cons_self _ _
  | cons c t ih =>
    by_cases h : c = sep
    · subst h
      rw [List.cons_append, strings_Split_cons_sep, List.tail_cons]
      exact List.mem_of_mem_tail ih
    · obtain ⟨seg0, segs, hs⟩ :=
        List.exists_cons_of_ne_nil (strings_Split_ne_nil (t ++ sep :: b) sep)
      rw [List.cons_append, strings_Split_cons_ne c _ sep h seg0 segs hs, List.tail_cons]
      rw [hs, List.tail_cons] at ih
      exact ih

/-- C20: for every non-empty exclude string with an empty comma-separated segment
(a leading comma, or a comma that ends the string or is followed by another comma)
whose other segments are valid patterns (patterns that `regexp.Compile` compiles,
whatever the library answers for the expressions left to it), `compileExcl`
succeeds, the rules it returns accept every name, and `parseFile` with these rules
returns an empty `structNames` for every file. -/
theorem compileExcl_empty_segment (lib : RegexpLib) (excl : GoString)
    (hempty : excl.head? = some ',' ∨
      ∃ a b, excl = a ++ ',' :: b ∧ (b = [] ∨ b.head? = some ','))
    (hvalid : ∀ seg ∈ strings_Split excl ',', seg ≠ [] →
      ∃ re, regexp_Compile lib seg = .ok re) :
    ∃ rules, compileExcl lib excl = .ok rules ∧
      (∀ name, matchExcl name rules = true) ∧
      (∀ (env : Env) (file : File) (method : GoString), ∃ out,
        (parseFile env file rules method).1 = .ok out ∧ out.structNames = []) := by
  have hne : excl ≠ [] := by
    rcases hempty with h | ⟨a, b, h, _⟩
    · intro e; rw [e] at h; simp at h
    · intro e; rw [e] at h; simp at h
  have hmem : [] ∈ strings_Split excl ',' := by
    rcases hempty with h | ⟨a, b, h, hb⟩
    · cases excl with
      | nil => simp at h
      | cons c t =>
        simp only [List.head?_cons, Option.some.injEq] at h
        subst h
        rw [strings_Split_cons_sep]
        exact List.mem_cons_self _ _
    · rw [h]
      exact List.mem_of_mem_tail (nil_mem_tail_strings_Split a b ',' hb)
  have hall : ∀ seg ∈ strings_Split excl ',', ∃ re, regexp_Compile lib seg = .ok re := by
    intro seg hs
    by_cases h : seg = []
    · subst h; exact ⟨⟨[], .empty⟩, rfl⟩
    · exact hvalid seg hs h
  obtain ⟨rules, hr, _⟩ := compileSegments_ok lib _ hall
  have hc : compileExcl lib excl = .ok rules := by
    rw [compileExcl_eq_ref]
    simp only [compileExclRef, hne, if_false, hr]
  obtain ⟨re, hre, hcomp⟩ := compileSegments_mem lib _ rules hr [] hmem
  have hre2 : re = ⟨[], .empty⟩ := by
    have : regexp_Compile lib [] = .ok ⟨[], .empty⟩ := rfl
    rw [this] at hcomp
    cases hcomp
    rfl
  have hmatch : ∀ name, matchExcl name rules = true := by
    intro name
    rw [matchExcl_eq_any, List.any_eq_true]
    exact ⟨re, hre, by rw [hre2]; exact search_empty none name⟩
  refine ⟨rules, hc, hmatch, ?_⟩
  intro env file method
  refine ⟨_, parseFile_fst env file rules method, ?_⟩
  simp [List.filter_eq_nil_iff, hmatch]

/-- The theorem of C20 at the exclude string `[A-Z]+,` (a trailing comma after an
expression left to the library), for a library that compiles `[A-Z]+`. -/
theorem compileExcl_empty_segment_witness :
    ∃ rules, compileExcl capitalsLib "[A-Z]+,".toList = .ok rules ∧
      (∀ name, matchExcl name rules = true) ∧
      (∀ (env : Env) (file : File) (method : GoString), ∃ out,
        (parseFile env file rules method).1 = .ok out ∧ out.structNames = []) :=
  compileExcl_empty_segment capitalsLib "[A-Z]+,".toList
    (Or.inr ⟨"[A-Z]+".toList, [], rfl, Or.inl rfl⟩)
    (fun seg hs _ => by
      have hsplit : strings_Split "[A-Z]+,".toList ',' = ["[A-Z]+".toList, []] := by decide
      rw [hsplit] at hs
      rcases List.mem_cons.1 hs with rfl | hs
      · exact ⟨_, rfl⟩
      · rcases List.mem_cons.1 hs with rfl | hs
        · exact ⟨_, rfl⟩
        · cases hs)

/-! ## The skip list (`parseSkipDir`, `isInSkipDirs`) -/

theorem isInSkipDirsLoop_iff (d : DirEntry) (skipDirs : List GoString) :
    isInSkipDirsLoop d skipDirs = true ↔ d.Name ∈ skipDirs := by
  induction skipDirs with
  | nil => simp [isInSkipDirsLoop]
  | cons s l ih =>
    by_cases h : d.Name = s
    · simp [isInSkipDirsLoop, h]
    · simp [isInSkipDirsLoop, h, ih]

theorem isInSkipDirs_eq (d : DirEntry) (skipDirs : List GoString) :
    isInSkipDirs d skipDirs = (d.IsDir && decide (d.Name ∈ skipDirs)) := by
  rw [Bool.eq_iff_iff]
  cases hd : d.IsDir <;> simp [isInSkipDirs, hd, isInSkipDirsLoop_iff]

/-- C12: `isInSkipDirs d skipDirs` is true iff `d` is a directory and the name of
`d` is equal to some element of `skipDirs`; it is false for every entry that is
not a directory and for the empty list. -/
theorem isInSkipDirs_iff (d : DirEntry) (skipDirs : List GoString) :
    (isInSkipDirs d skipDirs = true ↔ d.IsDir = true ∧ ∃ skipDir ∈ skipDirs, d.Name = skipDir) ∧
    (d.IsDir = false → isInSkipDirs d skipDirs = false) ∧
    isInSkipDirs d [] = false := by
  refine ⟨?_, ?_, ?_⟩
  · rw [isInSkipDirs_eq]
    simp
  · intro h
    simp [isInSkipDirs, h]
  · cases hd : d.IsDir <;> simp [isInSkipDirs, hd, isInSkipDirsLoop]

/-- C15: `parseSkipDir s` is the list of the segments of `s` between commas, in
order and untrimmed: joining it with commas gives back `s`, no segment holds a
comma, there is one segment more than commas, and it is the only such list (the
segments joined by commas split back into themselves); `parseSkipDir ""` is the
one-element list of the empty string and `parseSkipDir "foo, bar"` keeps the blank
before `bar`. -/
theorem parseSkipDir_segments (s : GoString) :
    List.intercalate [','] (parseSkipDir s) = s ∧
    (∀ seg ∈ parseSkipDir s, ',' ∉ seg) ∧
    (parseSkipDir s).length = s.count ',' + 1 ∧
    (∀ segs : List GoString, segs ≠ [] → (∀ seg ∈ segs, ',' ∉ seg) →
      parseSkipDir (List.intercalate [','] segs) = segs) ∧
    parseSkipDir [] = [[]] ∧
    parseSkipDir "foo, bar".toList = ["foo".toList, " bar".toList] :=
  ⟨intercalate_strings_Split s ',', strings_Split_no_sep s ',', strings_Split_length s ',',
    fun segs hne h => strings_Split_intercalate segs ',' hne h, rfl, by decide⟩

/-- C18, at the skip list of the usage text: for the directory `skip1` found at
`/path/to/directory/skip1` and the skip list parsed from
`/path/to/directory/skip1/,/path/to/directory/skip2/`, `isInSkipDirs` is false,
and the walk of `/path/to/directory/` passes the file `skip1/a.go` to `genSource`.
The name of an entry is compared with the whole elements of the list: an entry
whose name holds no slash is never in a list whose elements all hold one. -/
theorem isInSkipDirs_usage_paths :
    parseSkipDir "/path/to/directory/skip1/,/path/to/directory/skip2/".toList =
      ["/path/to/directory/skip1/".toList, "/path/to/directory/skip2/".toList] ∧
    isInSkipDirs ⟨"skip1".toList, true⟩
      (parseSkipDir "/path/to/directory/skip1/,/path/to/directory/skip2/".toList) = false ∧
    calledSources (genRecursive quietEnv (.ok usageTree) "/path/to/directory/".toList true []
      "json".toList
      (parseSkipDir "/path/to/directory/skip1/,/path/to/directory/skip2/".toList)).2 =
      ["/path/to/directory/skip1/a.go".toList] ∧
    (∀ (d : DirEntry) (skipDirs : List GoString), '/' ∉ d.Name →
      (∀ skipDir ∈ skipDirs, '/' ∈ skipDir) → isInSkipDirs d skipDirs = false) := by
  refine ⟨by decide, by decide, by decide, ?_⟩
  intro d skipDirs hd hs
  rw [isInSkipDirs_eq]
  have : d.Name ∉ skipDirs := fun hm => hd (hs d.Name hm)
  simp [this]

/-! ## The generated method -/

/-- C19, at the struct name `Vec`: the receiver that `genJSON` and `genJSONIter`
emit is `v`, the identifier that the emitted body declares with `v, _ :=`, so the
emitted declaration `v, _ := json.Marshal(v)` has no new variable on its left
side. The same holds for every name whose first character is `v` or `V`. -/
theorem genJSON_receiver_v :
    lowerFirstByte 'V' = ['v'] ∧
    (output.genJSON ⟨[], "main".toList, ["Vec".toList], "json".toList⟩).buf =
      "package main\n\nimport (\n\"encoding/json\"\n)\n\n// String Used in fmt to generate string\nfunc (v *Vec) String() string \x7b\nv, _ := json.Marshal(v)\nreturn string(v)\n\x7d\n".toList ∧
    (output.genJSONIter ⟨[], "main".toList, ["Vec".toList], "jsoniter".toList⟩).buf =
      "package main\n\nimport (\njsoniter \"github.com/json-iterator/go\"\n)\n\n// String Used in fmt to generate string\nfunc (v *Vec) String() string \x7b\nv, _ := jsoniter.ConfigCompatibleWithStandardLibrary.Marshal(v)\nreturn string(v)\n\x7d\n".toList ∧
    (∀ c : Char, c = 'v' ∨ c = 'V' → lowerFirstByte c = ['v']) ∧
    ¬ ∀ c : Char, lowerFirstByte c ≠ ['v'] := by
  refine ⟨by decide, rfl, rfl, ?_, ?_⟩
  · rintro c (rfl | rfl) <;> decide
  · intro h
    exact h 'V' (by decide)

/-- C17 as stated fails: the method discards the error of the encoder. For an
encoder that fails with the cycle error the method returns the empty string, as
it does for an encoder that fails with another error: no function of the result
of the method tells the caller the error of the encoder. -/
theorem someStruct_String_discards_error :
    someStruct_String cycleMarshal () = [] ∧
    someStruct_String otherMarshal () = [] ∧
    ¬ ∃ observe : GoString → Option Error,
      ∀ (Marshal : Unit → GoString × Option Error),
        observe (someStruct_String Marshal ()) = (Marshal ()).2 := by
  refine ⟨rfl, rfl, ?_⟩
  rintro ⟨observe, h⟩
  have h1 := h cycleMarshal
  have h2 := h otherMarshal
  have e1 : someStruct_String cycleMarshal () = [] := rfl
  have e2 : someStruct_String otherMarshal () = [] := rfl
  rw [e1] at h1
  rw [e2] at h2
  rw [h1] at h2
  revert h2
  decide

/-- C17 (amended): the method emitted by the json strategy calls the encoder once
and returns the text of the bytes the encoder returns, whatever error comes with
them; for a receiver on which the encoder fails and returns nil bytes (a cycle in
the field graph among them) the method returns the empty string: it neither loops
nor reports the error. -/
theorem someStruct_String_result {α : Type} (Marshal : α → GoString × Option Error) (s : α) :
    someStruct_String Marshal s = (Marshal s).1 ∧
    (∀ err, Marshal s = ([], some err) → someStruct_String Marshal s = []) := by
  refine ⟨rfl, ?_⟩
  intro err h
  simp [someStruct_String, h]

/-! ## Extensions and destinations (`filepath.Ext`, `filepath.Base`) -/

theorem filepath_ExtAux_skip (pre l acc : List Char) (h : ∀ c ∈ pre, c ≠ '.' ∧ c ≠ '/') :
    filepath_ExtAux (pre ++ l) acc = filepath_ExtAux l (pre.reverse ++ acc) := by
  induction pre generalizing acc with
  | nil => rfl
  | cons c t ih =>
    have hc := h c (List.mem_cons_self _ _)
    have ht : ∀ d ∈ t, d ≠ '.' ∧ d ≠ '/' := fun d hd => h d (List.mem_cons_of_mem _ hd)
    have step : filepath_ExtAux (c :: t ++ l) acc = filepath_ExtAux (t ++ l) (c :: acc) := by
      simp [filepath_ExtAux, hc.1, hc.2]
    rw [step, ih _ ht]
    simp

theorem filepath_ExtAux_cases (l acc : List Char) :
    (filepath_ExtAux l acc = [] ∧ ∀ acc2, filepath_ExtAux l acc2 = []) ∨
    (∃ pre post, l = pre ++ '.' :: post ∧ (∀ c ∈ pre, c ≠ '.' ∧ c ≠ '/') ∧
      filepath_ExtAux l acc = '.' :: (pre.reverse ++ acc)) := by
  induction l generalizing acc with
  | nil => exact Or.inl ⟨rfl, fun _ => rfl⟩
  | cons c t ih =>
    by_cases h1 : c = '/'
    · exact Or.inl ⟨by simp [filepath_ExtAux, h1], fun _ => by simp [filepath_ExtAux, h1]⟩
    · by_cases h2 : c = '.'
      · refine Or.inr ⟨[], t, by simp [h2], by simp, ?_⟩
        subst h2
        simp [filepath_ExtAux]
      · rcases ih (c :: acc) with ⟨_, hall⟩ | ⟨pre, post, hl, hpre, he⟩
        · refine Or.inl ⟨?_, ?_⟩
          · simp only [filepath_ExtAux, h1, h2, if_false]; exact hall _
          · intro acc2; simp only [filepath_ExtAux, h1, h2, if_false]; exact hall _
        · refine Or.inr ⟨c :: pre, post, by simp [hl], ?_, ?_⟩
          · intro d hd
            rcases List.mem_cons.1 hd with rfl | hd
            · exact ⟨h2, h1⟩
            · exact hpre d hd
          · simp only [filepath_ExtAux, h1, h2, if_false, he, List.reverse_cons,
              List.append_assoc, List.singleton_append]

theorem filepath_ExtAux_takeWhile (l acc : List Char) :
    filepath_ExtAux (l.takeWhile (fun c => c ≠ '/')) acc = filepath_ExtAux l acc := by
  induction l generalizing acc with
  | nil => rfl
  | cons c t ih =>
    by_cases h1 : c = '/'
    · simp [filepath_ExtAux, h1]
    · by_cases h2 : c = '.'
      · simp [filepath_ExtAux, h1, h2, List.takeWhile_cons]
      · simp only [filepath_ExtAux, h1, h2, List.takeWhile_cons, ne_eq, not_false_eq_true,
          decide_True, if_true, if_false]
        exact ih (c :: acc)

theorem filepath_Base_eq_lastElem (path : GoString) (hne : path ≠ [])
    (hlast : path.getLast? ≠ some '/') : filepath_Base path = lastElem path := by
  unfold filepath_Base lastElem
  rw [if_neg hne]
  have hrev : path.reverse ≠ [] := by simpa using hne
  obtain ⟨c, t, hct⟩ := List.exists_cons_of_ne_nil hrev
  have hc : c ≠ '/' := by
    intro e
    apply hlast
    have : path.getLast? = path.reverse.head? := by simp
    rw [this, hct, e]
    rfl
  simp only [hct, List.dropWhile_cons, hc, decide_False, Bool.false_eq_true, if_false,
    List.takeWhile_cons, ne_eq, not_false_eq_true, decide_True, if_true, List.reverse_cons]
  simp

theorem filepath_Ext_Base (path : GoString) (hne : path ≠ [])
    (hlast : path.getLast? ≠ some '/') :
    filepath_Ext (filepath_Base path) = filepath_Ext path := by
  rw [filepath_Base_eq_lastElem path hne hlast]
  unfold filepath_Ext lastElem
  rw [List.reverse_reverse, filepath_ExtAux_takeWhile]

/-- What `filepath.Ext` returns: nothing, or the dot and what follows it, where
what follows holds neither dot nor slash; in both cases a suffix of the path. -/
theorem filepath_Ext_cases (path : GoString) :
    (filepath_Ext path = [] ∧ ∀ acc, filepath_ExtAux path.reverse acc = []) ∨
    (∃ stem tail, path = stem ++ '.' :: tail ∧ (∀ c ∈ tail, c ≠ '.' ∧ c ≠ '/') ∧
      filepath_Ext path = '.' :: tail) := by
  rcases filepath_ExtAux_cases path.reverse [] with h | ⟨pre, post, hl, hpre, he⟩
  · exact Or.inl h
  · refine Or.inr ⟨post.reverse, pre.reverse, ?_, ?_, ?_⟩
    · have := congrArg List.reverse hl
      simpa using this
    · intro c hc
      exact hpre c (List.mem_reverse.1 hc)
    · simpa [filepath_Ext] using he

theorem filepath_Ext_suffix (path : GoString) :
    ∃ stem, path = stem ++ filepath_Ext path := by
  rcases filepath_Ext_cases path with ⟨h, _⟩ | ⟨stem, tail, hp, _, he⟩
  · exact ⟨path, by simp [h]⟩
  · exact ⟨stem, by rw [he]; exact hp⟩

theorem stringerPath_eq (path stem : GoString) (h : path = stem ++ filepath_Ext path) :
    stringerPath path = stem ++ "_stringer".toList ++ filepath_Ext path := by
  unfold stringerPath
  have hlen : path.length - (filepath_Ext path).length = stem.length := by
    have := congrArg List.length h
    simp only [List.length_append] at this
    omega
  rw [hlen]
  congr 2
  conv_lhs => rw [h]
  simp

theorem filepath_Ext_stringerPath (path : GoString) :
    filepath_Ext (stringerPath path) = filepath_Ext path := by
  have hs : ∀ c ∈ "_stringer".toList, c ≠ '.' ∧ c ≠ '/' := by decide
  rcases filepath_Ext_cases path with ⟨h, hall⟩ | ⟨stem, tail, hp, htail, he⟩
  · have hsp : stringerPath path = path ++ "_stringer".toList := by
      rw [stringerPath_eq path path (by simp [h]), h]; simp
    rw [hsp, h]
    unfold filepath_Ext
    rw [List.reverse_append, filepath_ExtAux_skip _ _ _ (fun c hc => hs c (List.mem_reverse.1 hc))]
    exact hall _
  · have hsp : stringerPath path = stem ++ "_stringer".toList ++ '.' :: tail := by
      rw [stringerPath_eq path stem (by rw [he]; exact hp), he]
    rw [hsp, he]
    unfold filepath_Ext
    have hrev : (stem ++ "_stringer".toList ++ '.' :: tail).reverse =
        tail.reverse ++ '.' :: (stem ++ "_stringer".toList).reverse := by
      simp
    rw [hrev, filepath_ExtAux_skip _ _ _ (fun c hc => htail c (List.mem_reverse.1 hc))]
    simp [filepath_ExtAux]

theorem dropWhile_append_of_all (a b : List Char) (h : ∀ c ∈ a, c ≠ '/') :
    (a ++ b).dropWhile (fun c => c ≠ '/') = b.dropWhile (fun c => c ≠ '/') := by
  induction a with
  | nil => rfl
  | cons c t ih =>
    have hc := h c (List.mem_cons_self _ _)
    simp only [List.cons_append, List.dropWhile_cons, ne_eq, hc, not_false_eq_true,
      decide_True, if_true]
    exact ih (fun d hd => h d (List.mem_cons_of_mem _ hd))

theorem filepath_Ext_no_slash (path : GoString) : ∀ c ∈ filepath_Ext path, c ≠ '/' := by
  rcases filepath_Ext_cases path with ⟨h, _⟩ | ⟨stem, tail, _, htail, he⟩
  · simp [h]
  · rw [he]
    intro c hc
    rcases List.mem_cons.1 hc with rfl | hc
    · decide
    · exact (htail c hc).2

theorem dirPart_stringerPath (path : GoString) :
    dirPart (stringerPath path) = dirPart path := by
  obtain ⟨stem, hstem⟩ := filepath_Ext_suffix path
  have hs : ∀ c ∈ "_stringer".toList, c ≠ '/' := by decide
  have hext := filepath_Ext_no_slash path
  rw [stringerPath_eq path stem hstem]
  conv_rhs => rw [hstem]
  unfold dirPart
  congr 1
  simp only [List.reverse_append]
  rw [dropWhile_append_of_all _ _ (fun c hc => hext c (List.mem_reverse.1 hc)),
    dropWhile_append_of_all _ _ (fun c hc => hs c (List.mem_reverse.1 hc)),
    dropWhile_append_of_all _ _ (fun c hc => hext c (List.mem_reverse.1 hc))]

theorem stringerPath_length (path : GoString) :
    (stringerPath path).length = path.length + 9 := by
  obtain ⟨stem, hstem⟩ := filepath_Ext_suffix path
  rw [stringerPath_eq path stem hstem]
  have := congrArg List.length hstem
  simp only [List.length_append] at this ⊢
  have h9 : "_stringer".toList.length = 9 := by decide
  omega

theorem dirPart_append_lastElem (path : GoString) : dirPart path ++ lastElem path = path := by
  unfold dirPart lastElem
  rw [← List.reverse_append, List.takeWhile_append_dropWhile, List.reverse_reverse]

/-! ## The walk callback of `genRecursive` -/

theorem filepath_Base_length (path : GoString) (hne : path ≠ []) :
    (filepath_Base path).length ≤ path.length := by
  unfold filepath_Base
  rw [if_neg hne]
  have hpos : 1 ≤ path.length := List.length_pos.2 hne
  simp only
  split
  · simpa using hpos
  · rw [List.length_reverse]
    calc (List.takeWhile (fun c => decide (c ≠ '/'))
            (List.dropWhile (fun c => decide (c = '/')) path.reverse)).length
        ≤ (List.dropWhile (fun c => decide (c = '/')) path.reverse).length :=
          (List.takeWhile_sublist _).length_le
      _ ≤ path.reverse.length := (List.dropWhile_sublist _).length_le
      _ = path.length := List.length_reverse _

theorem filepath_Ext_length (path : GoString) : (filepath_Ext path).length ≤ path.length := by
  obtain ⟨stem, h⟩ := filepath_Ext_suffix path
  have := congrArg List.length h
  simp only [List.length_append] at this
  omega

theorem calledSources_outside (evs : List Event) :
    calledSources (evs.map Step.Outside) = [] := by
  induction evs with
  | nil => rfl
  | cons e evs ih => simp [calledSources, Step.source?]

theorem func1_dir (env : Env) (save : Bool) (exclRes : List Regexp) (method : GoString)
    (skipDirs : List GoString) (path name : GoString) :
    genRecursive_func1 env save exclRes method skipDirs path (some ⟨name, true⟩) none =
      if name ∈ skipDirs then
        (.Return (some .SkipDir),
          (debuger_Printf env (yellow ++ "SKIP DIR: %s".toList ++ reset) [.str name]).map
            Step.Outside)
      else (.Return none, []) := by
  by_cases h : name ∈ skipDirs <;>
    simp [genRecursive_func1, isInSkipDirs_eq, h]

theorem func1_dir_err (env : Env) (save : Bool) (exclRes : List Regexp) (method : GoString)
    (skipDirs : List GoString) (path name : GoString) (e : Error) (h : name ∉ skipDirs) :
    genRecursive_func1 env save exclRes method skipDirs path (some ⟨name, true⟩) (some e) =
      (.Return (some e), []) := by
  simp [genRecursive_func1, isInSkipDirs_eq, h]

theorem func1_file_calls (env : Env) (save : Bool) (exclRes : List Regexp) (method : GoString)
    (skipDirs : List GoString) (path name : GoString) :
    (calledSources (genRecursive_func1 env save exclRes method skipDirs path
      (some ⟨name, false⟩) none).2).Sublist [path] := by
  cases save with
  | false =>
    simp [genRecursive_func1, isInSkipDirs, calledSources, Step.source?,
      List.filterMap_cons, List.filterMap_map]
  | true =>
    simp only [genRecursive_func1, isInSkipDirs, Bool.not_false, if_true, Bool.false_eq_true,
      if_false, Bool.not_true]
    split
    · simp [calledSources]
    · have := calledSources_outside
        (genSource env path (List.take (path.length - (filepath_Ext (filepath_Base path)).length)
          path ++ "_stringer".toList ++ filepath_Ext (filepath_Base path)) exclRes method).2
      simp only [calledSources] at this
      simp [calledSources, Step.source?, List.filterMap_cons, this]

/-- C14: in recursive mode, for every path of a file (not empty, not ending in a
slash), the callback with `save` calls `genSource` once, with the destination made
of the path without its final extension, then `_stringer`, then that extension
(`xx.go` gives `xx_stringer.go`); the destination has the directory part and the
extension of the source and differs from the source; without `save` the
destination is the empty string. -/
theorem genRecursive_destination (env : Env) (exclRes : List Regexp) (method : GoString)
    (skipDirs : List GoString) (path name : GoString)
    (hne : path ≠ []) (hlast : path.getLast? ≠ some '/') :
    genRecursive_func1 env true exclRes method skipDirs path (some ⟨name, false⟩) none =
      (.Return (genSource env path (stringerPath path) exclRes method).1,
        Step.GenSource path (stringerPath path) ::
          (genSource env path (stringerPath path) exclRes method).2.map Step.Outside) ∧
    genRecursive_func1 env false exclRes method skipDirs path (some ⟨name, false⟩) none =
      (.Return (genSource env path [] exclRes method).1,
        Step.GenSource path [] :: (genSource env path [] exclRes method).2.map Step.Outside) ∧
    (∃ stem, path = stem ++ filepath_Ext path ∧
      stringerPath path = stem ++ "_stringer".toList ++ filepath_Ext path) ∧
    dirPart (stringerPath path) = dirPart path ∧
    filepath_Ext (stringerPath path) = filepath_Ext path ∧
    stringerPath path ≠ path ∧
    stringerPath "xx.go".toList = "xx_stringer.go".toList := by
  have hext := filepath_Ext_Base path hne hlast
  have hlen : ¬ path.length < (filepath_Ext path).length := by
    have := filepath_Ext_length path
    omega
  refine ⟨?_, ?_, ?_, dirPart_stringerPath path, filepath_Ext_stringerPath path, ?_, by decide⟩
  · simp only [genRecursive_func1, isInSkipDirs, Bool.not_false, if_true, Bool.false_eq_true,
      if_false, Bool.not_true, hext, hlen, stringerPath]
  · simp [genRecursive_func1, isInSkipDirs]
  · obtain ⟨stem, h⟩ := filepath_Ext_suffix path
    exact ⟨stem, h, stringerPath_eq path stem h⟩
  · intro h
    have := congrArg List.length h
    rw [stringerPath_length] at this
    omega

/-- The theorem of C14 at the path `pkg/sub/xx.go`. -/
theorem genRecursive_destination_witness :
    calledSources (genRecursive_func1 quietEnv true [] "json".toList [] "pkg/sub/xx.go".toList
      (some ⟨"xx.go".toList, false⟩) none).2 = ["pkg/sub/xx.go".toList] ∧
    stringerPath "pkg/sub/xx.go".toList = "pkg/sub/xx_stringer.go".toList ∧
    dirPart (stringerPath "pkg/sub/xx.go".toList) = "pkg/sub/".toList :=
  ⟨by
    rw [(genRecursive_destination quietEnv [] "json".toList [] "pkg/sub/xx.go".toList
      "xx.go".toList (by decide) (by decide)).1]
    decide,
    by decide,
    by
      rw [(genRecursive_destination quietEnv [] "json".toList [] "pkg/sub/xx.go".toList
        "xx.go".toList (by decide) (by decide)).2.2.2.1]
      decide⟩

/-- C16, at a root that cannot be read: `filepath.WalkDir` calls the callback with
the root, a nil entry and the error, and the callback panics in `isInSkipDirs`
before it looks at the error, for every path and every error; and for an entry
that is a directory named in the skip list the callback returns `SkipDir`, not the
error. -/
theorem genRecursive_root_error_panics :
    genRecursive quietEnv
      (.error (.external "lstat /nonexistent: no such file or directory".toList))
      "/nonexistent".toList false [] "json".toList (parseSkipDir []) = (.Panic, []) ∧
    (∀ (env : Env) (save : Bool) (exclRes : List Regexp) (method : GoString)
      (skipDirs : List GoString) (path : GoString) (err : Error),
      genRecursive_func1 env save exclRes method skipDirs path none (some err) =
        (.Panic, [])) ∧
    (∀ (env : Env) (save : Bool) (exclRes : List Regexp) (method : GoString)
      (skipDirs : List GoString) (path name : GoString) (err : Error), name ∈ skipDirs →
      (genRecursive_func1 env save exclRes method skipDirs path (some ⟨name, true⟩)
        (some err)).1 = .Return (some .SkipDir)) := by
  refine ⟨by decide, fun _ _ _ _ _ _ _ => rfl, ?_⟩
  intro env save exclRes method skipDirs path name err h
  simp [genRecursive_func1, isInSkipDirs_eq, h]

/-! ## The walk of `genRecursive` -/

theorem filepath_Clean_ne_nil (path : GoString) : filepath_Clean path ≠ [] := by
  have h : ∀ out : GoString, (if out = [] then ['.'] else out) ≠ [] := by
    intro out
    by_cases ho : out = []
    · simp [ho]
    · simp [ho]
  unfold filepath_Clean
  exact h _

theorem filepath_Join_ne_nil (dir name : GoString) (h : dir ≠ []) :
    filepath_Join dir name ≠ [] := by
  unfold filepath_Join
  rw [if_pos h]
  exact filepath_Clean_ne_nil _

mutual
theorem walkDir_calls_sublist (env : Env) (save : Bool) (exclRes : List Regexp)
    (method : GoString) (skipDirs : List GoString) :
    ∀ (path : GoString) (node : Node),
      (calledSources (walkDir (genRecursive_func1 env save exclRes method skipDirs)
        path node).2).Sublist (keptFilesRec skipDirs path node)
  | path, .file name => by
    simp only [walkDir, keptFilesRec]
    exact func1_file_calls env save exclRes method skipDirs path name
  | path, .dir name readErr entries => by
    simp only [walkDir, keptFilesRec, func1_dir]
    by_cases h : name ∈ skipDirs
    · simp [h, calledSources_outside]
    · simp only [h, if_false]
      have ih := walkEntries_calls_sublist env save exclRes method skipDirs path entries
      cases readErr with
      | none => simpa using ih
      | some rerr =>
        simp only [func1_dir_err env save exclRes method skipDirs path name rerr h]
        simp [calledSources]
theorem walkEntries_calls_sublist (env : Env) (save : Bool) (exclRes : List Regexp)
    (method : GoString) (skipDirs : List GoString) :
    ∀ (path : GoString) (entries : List Node),
      (calledSources (walkEntries (genRecursive_func1 env save exclRes method skipDirs)
        path entries).2).Sublist (keptFilesRecList skipDirs path entries)
  | _, [] => by simp [walkEntries, keptFilesRecList, calledSources]
  | path, d1 :: rest => by
    have ih1 := walkDir_calls_sublist env save exclRes method skipDirs
      (filepath_Join path d1.name) d1
    have ih2 := walkEntries_calls_sublist env save exclRes method skipDirs path rest
    simp only [walkEntries, keptFilesRecList]
    generalize walkDir (genRecursive_func1 env save exclRes method skipDirs)
      (filepath_Join path d1.name) d1 = r at ih1 ⊢
    obtain ⟨o, s⟩ := r
    cases o with
    | Panic => exact ih1.trans (List.sublist_append_left _ _)
    | Return err =>
      cases err with
      | some e =>
        simp only
        split <;> exact ih1.trans (List.sublist_append_left _ _)
      | none =>
        simp only [calledSources, List.filterMap_append] at ih1 ih2 ⊢
        exact ih1.append ih2
end

mutual
theorem filesBeneath_pruned (skipDirs : List GoString) :
    ∀ (path : GoString) (above : List GoString) (node : Node),
      above.all (fun name => decide (name ∉ skipDirs)) = false →
      (filesBeneath path above node).filter
        (fun f => f.2.all (fun name => decide (name ∉ skipDirs))) = []
  | path, above, .file _, h => by
    simp only [filesBeneath, List.filter_cons, h, Bool.false_eq_true, if_false, List.filter_nil]
  | path, above, .dir name _ entries, h => by
    simp only [filesBeneath]
    exact filesBeneathList_pruned skipDirs path (name :: above) entries
      (by simp only [List.all_cons, h, Bool.and_false])
theorem filesBeneathList_pruned (skipDirs : List GoString) :
    ∀ (path : GoString) (above : List GoString) (entries : List Node),
      above.all (fun name => decide (name ∉ skipDirs)) = false →
      (filesBeneathList path above entries).filter
        (fun f => f.2.all (fun name => decide (name ∉ skipDirs))) = []
  | _, _, [], _ => by simp [filesBeneathList]
  | path, above, d1 :: rest, h => by
    simp only [filesBeneathList, List.filter_append,
      filesBeneath_pruned skipDirs (filepath_Join path d1.name) above d1 h,
      filesBeneathList_pruned skipDirs path above rest h, List.append_nil]
end

mutual
theorem filesBeneath_kept (skipDirs : List GoString) :
    ∀ (path : GoString) (above : List GoString) (node : Node),
      above.all (fun name => decide (name ∉ skipDirs)) = true →
      ((filesBeneath path above node).filter
        (fun f => f.2.all (fun name => decide (name ∉ skipDirs)))).map Prod.fst =
        keptFilesRec skipDirs path node
  | path, above, .file _, h => by
    simp only [filesBeneath, keptFilesRec, List.filter_cons, h, if_true, List.filter_nil,
      List.map_cons, List.map_nil]
  | path, above, .dir name _ entries, h => by
    simp only [filesBeneath, keptFilesRec]
    by_cases hn : name ∈ skipDirs
    · rw [if_pos hn, filesBeneathList_pruned skipDirs path (name :: above) entries
        (by simp [hn])]
      rfl
    · rw [if_neg hn]
      exact filesBeneathList_kept skipDirs path (name :: above) entries
        (by simp only [List.all_cons, h, Bool.and_true]; simpa using hn)
theorem filesBeneathList_kept (skipDirs : List GoString) :
    ∀ (path : GoString) (above : List GoString) (entries : List Node),
      above.all (fun name => decide (name ∉ skipDirs)) = true →
      ((filesBeneathList path above entries).filter
        (fun f => f.2.all (fun name => decide (name ∉ skipDirs)))).map Prod.fst =
        keptFilesRecList skipDirs path entries
  | _, _, [], _ => by simp [filesBeneathList, keptFilesRecList]
  | path, above, d1 :: rest, h => by
    simp only [filesBeneathList, keptFilesRecList, List.filter_append, List.map_append,
      filesBeneath_kept skipDirs (filepath_Join path d1.name) above d1 h,
      filesBeneathList_kept skipDirs path above rest h]
end

theorem keptFiles_eq_rec (skipDirs : List GoString) (root : GoString) (tree : Node) :
    keptFiles skipDirs root tree = keptFilesRec skipDirs root tree :=
  filesBeneath_kept skipDirs root [] tree rfl

/-! ## The course of a walk: it stops at the first error -/

theorem func1_file_eq (env : Env) (save : Bool) (exclRes : List Regexp) (method : GoString)
    (skipDirs : List GoString) (path name : GoString) (hne : path ≠ []) :
    genRecursive_func1 env save exclRes method skipDirs path (some ⟨name, false⟩) none =
      (.Return (genSource env path (callDestination save path) exclRes method).1,
        Step.GenSource path (callDestination save path) ::
          (genSource env path (callDestination save path) exclRes method).2.map
            Step.Outside) := by
  have hlen : ¬ path.length < (filepath_Ext (filepath_Base path)).length := by
    have h1 := filepath_Ext_length (filepath_Base path)
    have h2 := filepath_Base_length path hne
    omega
  cases save with
  | false => simp [genRecursive_func1, isInSkipDirs, callDestination]
  | true =>
    simp only [genRecursive_func1, isInSkipDirs, Bool.not_false, if_true,
      Bool.false_eq_true, if_false, Bool.not_true, hlen, callDestination]

theorem untilError_append_some (errOf : Visit → Option Error) (a b : List Visit) (e : Error)
    (h : (untilError errOf a).2 = some e) :
    untilError errOf (a ++ b) = untilError errOf a := by
  induction a with
  | nil => simp [untilError] at h
  | cons v vs ih =>
    simp only [List.cons_append, untilError]
    cases hv : errOf v with
    | some e2 => rfl
    | none =>
      simp only [untilError, hv] at h
      simp only [List.append_eq, ih h]

theorem untilError_append_none (errOf : Visit → Option Error) (a b : List Visit)
    (h : (untilError errOf a).2 = none) :
    untilError errOf (a ++ b) =
      ((untilError errOf a).1 ++ (untilError errOf b).1, (untilError errOf b).2) := by
  induction a with
  | nil => simp [untilError]
  | cons v vs ih =>
    simp only [List.cons_append, untilError]
    cases hv : errOf v with
    | some e2 => simp [untilError, hv] at h
    | none =>
      simp only [untilError, hv] at h
      simp only [List.append_eq, ih h, List.cons_append]

theorem untilError_initial (errOf : Visit → Option Error) (vs : List Visit) :
    (untilError errOf vs).1 <+: vs := by
  induction vs with
  | nil => exact List.prefix_rfl
  | cons v vs ih =>
    simp only [untilError]
    cases hv : errOf v with
    | some e => exact ⟨vs, rfl⟩
    | none => exact (List.prefix_cons_inj v).2 ih

theorem untilError_files_ok (errOf : Visit → Option Error) (l : List GoString)
    (h : ∀ q ∈ l, errOf (.file q) = none) :
    untilError errOf (l.map Visit.file) = (l.map Visit.file, none) := by
  induction l with
  | nil => rfl
  | cons q l ih =>
    have hq := h q (List.mem_cons_self _ _)
    have hl := ih (fun r hr => h r (List.mem_cons_of_mem _ hr))
    simp only [List.map_cons, untilError, hq, hl]

theorem untilError_files_fail (errOf : Visit → Option Error) (pre post : List GoString)
    (p : GoString) (e : Error) (h : ∀ q ∈ pre, errOf (.file q) = none)
    (hp : errOf (.file p) = some e) :
    untilError errOf ((pre ++ p :: post).map Visit.file) =
      ((pre ++ [p]).map Visit.file, some e) := by
  induction pre with
  | nil => simp [untilError, hp]
  | cons q l ih =>
    have hq := h q (List.mem_cons_self _ _)
    have hl := ih (fun r hr => h r (List.mem_cons_of_mem _ hr))
    simp only [List.cons_append, List.map_cons, untilError, hq, List.append_eq, hl]

theorem filterMap_source_files (l : List GoString) :
    (l.map Visit.file).filterMap Visit.source? = l := by
  induction l with
  | nil => rfl
  | cons q l ih => simp [Visit.source?, List.filterMap_cons, ih]

mutual
theorem visits_readsOk (skipDirs : List GoString) :
    ∀ (path : GoString) (node : Node), readsOk skipDirs node = true →
      visits skipDirs path node = (keptFilesRec skipDirs path node).map Visit.file
  | path, .file _, _ => by simp [visits, keptFilesRec]
  | path, .dir name readErr entries, hok => by
    simp only [visits, keptFilesRec]
    by_cases h : name ∈ skipDirs
    · simp [h]
    · simp only [readsOk, h, decide_False, Bool.false_or, Bool.and_eq_true,
        Option.isNone_iff_eq_none] at hok
      obtain ⟨hr, hl⟩ := hok
      subst hr
      simp only [h, if_false]
      exact visitsList_readsOk skipDirs path entries hl
theorem visitsList_readsOk (skipDirs : List GoString) :
    ∀ (path : GoString) (entries : List Node), readsOkList skipDirs entries = true →
      visitsList skipDirs path entries = (keptFilesRecList skipDirs path entries).map Visit.file
  | _, [], _ => by simp [visitsList, keptFilesRecList]
  | path, d1 :: rest, hok => by
    simp only [readsOkList, Bool.and_eq_true] at hok
    simp only [visitsList, keptFilesRecList, List.map_append,
      visits_readsOk skipDirs (filepath_Join path d1.name) d1 hok.1,
      visitsList_readsOk skipDirs path rest hok.2]
end

mutual
theorem visits_sources (skipDirs : List GoString) :
    ∀ (path : GoString) (node : Node),
      (visits skipDirs path node).filterMap Visit.source? = keptFilesRec skipDirs path node
  | path, .file _ => by simp [visits, keptFilesRec, Visit.source?]
  | path, .dir name readErr entries => by
    simp only [visits, keptFilesRec]
    by_cases h : name ∈ skipDirs
    · simp [h]
    · simp only [h, if_false]
      have ih := visitsList_sources skipDirs path entries
      cases readErr with
      | none => exact ih
      | some rerr => simpa [Visit.source?, List.filterMap_cons] using ih
theorem visitsList_sources (skipDirs : List GoString) :
    ∀ (path : GoString) (entries : List Node),
      (visitsList skipDirs path entries).filterMap Visit.source? =
        keptFilesRecList skipDirs path entries
  | _, [] => by simp [visitsList, keptFilesRecList]
  | path, d1 :: rest => by
    simp only [visitsList, keptFilesRecList, List.filterMap_append,
      visits_sources skipDirs (filepath_Join path d1.name) d1,
      visitsList_sources skipDirs path rest]
end

mutual
theorem walkDir_course (env : Env) (save : Bool) (exclRes : List Regexp)
    (method : GoString) (skipDirs : List GoString) :
    ∀ (path : GoString) (node : Node), path ≠ [] →
      (untilError (Visit.error env save exclRes method) (visits skipDirs path node)).2 ≠
        some .SkipDir →
      (walkDir (genRecursive_func1 env save exclRes method skipDirs) path node).1 =
          .Return (untilError (Visit.error env save exclRes method)
            (visits skipDirs path node)).2 ∧
        calledSources (walkDir (genRecursive_func1 env save exclRes method skipDirs)
          path node).2 =
          (untilError (Visit.error env save exclRes method)
            (visits skipDirs path node)).1.filterMap Visit.source?
  | path, .file name, hne, _ => by
    have hc := calledSources_outside
      (genSource env path (callDestination save path) exclRes method).2
    simp only [calledSources] at hc
    simp only [walkDir, visits, func1_file_eq env save exclRes method skipDirs path name hne,
      untilError, Visit.error]
    cases hg : (genSource env path (callDestination save path) exclRes method).1 with
    | none => simp [calledSources, Step.source?, Visit.source?, List.filterMap_cons, hc]
    | some e => simp [calledSources, Step.source?, Visit.source?, List.filterMap_cons, hc]
  | path, .dir name readErr entries, hne, hskip => by
    simp only [walkDir, visits, func1_dir]
    by_cases h : name ∈ skipDirs
    · simp [h, calledSources_outside, untilError]
    · simp only [visits, h, if_false] at hskip
      simp only [h, if_false]
      cases readErr with
      | none =>
        have ih := walkEntries_course env save exclRes method skipDirs path entries hne hskip
        exact ⟨ih.1, by simpa using ih.2⟩
      | some rerr =>
        simp only [untilError, Visit.error] at hskip
        have hne2 : rerr ≠ .SkipDir := fun e => hskip (by rw [e])
        simp [func1_dir_err env save exclRes method skipDirs path name rerr h, untilError,
          Visit.error, hne2, calledSources, Visit.source?]
theorem walkEntries_course (env : Env) (save : Bool) (exclRes : List Regexp)
    (method : GoString) (skipDirs : List GoString) :
    ∀ (path : GoString) (entries : List Node), path ≠ [] →
      (untilError (Visit.error env save exclRes method)
        (visitsList skipDirs path entries)).2 ≠ some .SkipDir →
      (walkEntries (genRecursive_func1 env save exclRes method skipDirs) path entries).1 =
          .Return (untilError (Visit.error env save exclRes method)
            (visitsList skipDirs path entries)).2 ∧
        calledSources (walkEntries (genRecursive_func1 env save exclRes method skipDirs)
          path entries).2 =
          (untilError (Visit.error env save exclRes method)
            (visitsList skipDirs path entries)).1.filterMap Visit.source?
  | _, [], _, _ => by simp [walkEntries, visitsList, untilError, calledSources]
  | path, d1 :: rest, hne, hskip => by
    simp only [visitsList] at hskip
    simp only [walkEntries, visitsList]
    cases hu : (untilError (Visit.error env save exclRes method)
        (visits skipDirs (filepath_Join path d1.name) d1)).2 with
    | some e =>
      rw [untilError_append_some _ _ _ e hu] at hskip ⊢
      have ih1 := walkDir_course env save exclRes method skipDirs
        (filepath_Join path d1.name) d1 (filepath_Join_ne_nil path d1.name hne) hskip
      rw [hu] at hskip ih1
      have hne2 : e ≠ .SkipDir := fun h => hskip (by rw [h])
      generalize walkDir (genRecursive_func1 env save exclRes method skipDirs)
        (filepath_Join path d1.name) d1 = r at ih1 ⊢
      obtain ⟨o, s⟩ := r
      obtain ⟨ho, hs⟩ := ih1
      simp only at ho hs
      subst ho
      simp only [hne2, if_false, hu]
      exact ⟨trivial, hs⟩
    | none =>
      rw [untilError_append_none _ _ _ hu] at hskip ⊢
      simp only at hskip
      have ih1 := walkDir_course env save exclRes method skipDirs
        (filepath_Join path d1.name) d1 (filepath_Join_ne_nil path d1.name hne)
        (by rw [hu]; simp)
      have ih2 := walkEntries_course env save exclRes method skipDirs path rest hne hskip
      rw [hu] at ih1
      generalize walkDir (genRecursive_func1 env save exclRes method skipDirs)
        (filepath_Join path d1.name) d1 = r at ih1 ⊢
      obtain ⟨o, s⟩ := r
      obtain ⟨ho, hs⟩ := ih1
      simp only at ho hs
      subst ho
      simp only [calledSources, List.filterMap_append] at hs ih2 ⊢
      exact ⟨ih2.1, by rw [hs, ih2.2]⟩
end

theorem filepath_WalkDir_fst (tree : Node) (root : GoString)
    (fn : GoString → Option DirEntry → Option Error → Outcome × List Step)
    (x : Option Error) (h : (walkDir fn root tree).1 = .Return x) (hx : x ≠ some .SkipDir) :
    (filepath_WalkDir (.ok tree) root fn).1 = .Return x := by
  unfold filepath_WalkDir
  simp only
  generalize walkDir fn root tree = r at h
  obtain ⟨o, s⟩ := r
  simp only at h
  subst h
  cases x with
  | none => rfl
  | some e =>
    have he : e ≠ .SkipDir := fun h => hx (by rw [h])
    simp [he]

theorem filepath_WalkDir_steps (tree : Node) (root : GoString)
    (fn : GoString → Option DirEntry → Option Error → Outcome × List Step) :
    (filepath_WalkDir (.ok tree) root fn).2 = (walkDir fn root tree).2 := by
  unfold filepath_WalkDir
  simp only
  generalize walkDir fn root tree = r
  obtain ⟨o, s⟩ := r
  cases o with
  | Panic => rfl
  | Return err => cases err <;> rfl

/-- C13 as stated fails in its last part: the walk stops at the first error. For
a directory `pkg` with the files `a.go` and `b.go`, no directory pruned, and a
parser that fails, `genSource` is called for `pkg/a.go` only and the walk returns
its error: `pkg/b.go`, beneath no pruned directory, is never passed to
`genSource`. -/
theorem genRecursive_stops_at_error_counterexample :
    genRecursive quietEnv (.ok twoFilesTree) "pkg".toList false [] "json".toList
        (parseSkipDir []) =
      (.Return (some (.errorf "failed parsing source file pkg/a.go: ".toList)),
        [Step.GenSource "pkg/a.go".toList [],
         Step.Outside (Event.ParseFile "pkg/a.go".toList)]) ∧
    keptFiles (parseSkipDir []) "pkg".toList twoFilesTree =
      ["pkg/a.go".toList, "pkg/b.go".toList] ∧
    ¬ ∀ (env : Env) (tree : Node) (root : GoString) (save : Bool) (exclRes : List Regexp)
        (method : GoString) (skipDirs : List GoString),
      calledSources (genRecursive env (.ok tree) root save exclRes method skipDirs).2 =
        keptFiles skipDirs root tree := by
  have h1 : genRecursive quietEnv (.ok twoFilesTree) "pkg".toList false [] "json".toList
        (parseSkipDir []) =
      (.Return (some (.errorf "failed parsing source file pkg/a.go: ".toList)),
        [Step.GenSource "pkg/a.go".toList [],
         Step.Outside (Event.ParseFile "pkg/a.go".toList)]) := by decide
  have h2 : keptFiles (parseSkipDir []) "pkg".toList twoFilesTree =
      ["pkg/a.go".toList, "pkg/b.go".toList] := by decide
  refine ⟨h1, h2, ?_⟩
  intro h
  have := h quietEnv twoFilesTree "pkg".toList false [] "json".toList (parseSkipDir [])
  rw [h1, h2] at this
  revert this
  decide

/-- C13 (amended): for every entry that is a directory whose name is in the prune
set the callback returns `SkipDir` and calls `genSource` for nothing, whatever
error comes with the entry. In every walk the sources passed to `genSource` are, in
depth-first order and each at most once, files that lie beneath no directory named
in the prune set (at any nesting depth): no file beneath such a directory is ever
passed. The walk stops at the first failure, of a call of `genSource` or of the
read of a directory outside the pruned ones: it returns the error of the first
visit that fails and has passed the files up to that visit, an initial part of
the files outside the pruned directories in their order, and no file after it
(the error not being the signal `SkipDir`, and the root path not empty). So when no directory
read fails and `genSource` succeeds on each file outside the pruned directories,
with the destination the walk passes, the walk returns nil and has passed exactly
these files; and when `genSource` fails on one of them after succeeding on those
before it, the walk returns that error and has passed the files before it and the
failing one only. -/
theorem genRecursive_prune (env : Env) (save : Bool) (exclRes : List Regexp)
    (method : GoString) (skipDirs : List GoString) (root : GoString) (tree : Node) :
    (∀ (path name : GoString) (err : Option Error), name ∈ skipDirs →
      (genRecursive_func1 env save exclRes method skipDirs path (some ⟨name, true⟩) err).1 =
          .Return (some .SkipDir) ∧
        calledSources (genRecursive_func1 env save exclRes method skipDirs path
          (some ⟨name, true⟩) err).2 = []) ∧
    (calledSources (genRecursive env (.ok tree) root save exclRes method skipDirs).2).Sublist
      (keptFiles skipDirs root tree) ∧
    (visits skipDirs root tree).filterMap Visit.source? = keptFiles skipDirs root tree ∧
    (root ≠ [] →
      (untilError (Visit.error env save exclRes method) (visits skipDirs root tree)).2 ≠
        some .SkipDir →
      (genRecursive env (.ok tree) root save exclRes method skipDirs).1 =
          .Return (untilError (Visit.error env save exclRes method)
            (visits skipDirs root tree)).2 ∧
        calledSources (genRecursive env (.ok tree) root save exclRes method skipDirs).2 =
          (untilError (Visit.error env save exclRes method)
            (visits skipDirs root tree)).1.filterMap Visit.source? ∧
        calledSources (genRecursive env (.ok tree) root save exclRes method skipDirs).2 <+:
          keptFiles skipDirs root tree) ∧
    (root ≠ [] → readsOk skipDirs tree = true →
      (∀ p ∈ keptFiles skipDirs root tree,
        (genSource env p (callDestination save p) exclRes method).1 = none) →
      (genRecursive env (.ok tree) root save exclRes method skipDirs).1 = .Return none ∧
        calledSources (genRecursive env (.ok tree) root save exclRes method skipDirs).2 =
          keptFiles skipDirs root tree) ∧
    (root ≠ [] → readsOk skipDirs tree = true →
      ∀ (pre : List GoString) (p : GoString) (post : List GoString) (e : Error),
        keptFiles skipDirs root tree = pre ++ p :: post →
        (∀ q ∈ pre, (genSource env q (callDestination save q) exclRes method).1 = none) →
        (genSource env p (callDestination save p) exclRes method).1 = some e →
        e ≠ .SkipDir →
        (genRecursive env (.ok tree) root save exclRes method skipDirs).1 =
            .Return (some e) ∧
          calledSources (genRecursive env (.ok tree) root save exclRes method skipDirs).2 =
            pre ++ [p]) := by
  have hcourse : root ≠ [] →
      (untilError (Visit.error env save exclRes method) (visits skipDirs root tree)).2 ≠
        some .SkipDir →
      (genRecursive env (.ok tree) root save exclRes method skipDirs).1 =
          .Return (untilError (Visit.error env save exclRes method)
            (visits skipDirs root tree)).2 ∧
        calledSources (genRecursive env (.ok tree) root save exclRes method skipDirs).2 =
          (untilError (Visit.error env save exclRes method)
            (visits skipDirs root tree)).1.filterMap Visit.source? ∧
        calledSources (genRecursive env (.ok tree) root save exclRes method skipDirs).2 <+:
          keptFiles skipDirs root tree := by
    intro hroot hskip
    have h := walkDir_course env save exclRes method skipDirs root tree hroot hskip
    have hsteps : calledSources
        (genRecursive env (.ok tree) root save exclRes method skipDirs).2 =
        (untilError (Visit.error env save exclRes method)
          (visits skipDirs root tree)).1.filterMap Visit.source? := by
      unfold genRecursive
      rw [filepath_WalkDir_steps]
      exact h.2
    refine ⟨?_, hsteps, ?_⟩
    · unfold genRecursive
      exact filepath_WalkDir_fst tree root _ _ h.1 hskip
    · rw [hsteps, keptFiles_eq_rec, ← visits_sources skipDirs root tree]
      exact (untilError_initial _ _).filterMap _
  refine ⟨?_, ?_, ?_, hcourse, ?_, ?_⟩
  · intro path name err h
    simp [genRecursive_func1, isInSkipDirs_eq, h, calledSources_outside]
  · rw [keptFiles_eq_rec]
    unfold genRecursive
    rw [filepath_WalkDir_steps]
    exact walkDir_calls_sublist env save exclRes method skipDirs root tree
  · rw [keptFiles_eq_rec]
    exact visits_sources skipDirs root tree
  · intro hroot hreads hgen
    rw [keptFiles_eq_rec] at hgen ⊢
    have hu := untilError_files_ok (Visit.error env save exclRes method)
      (keptFilesRec skipDirs root tree) hgen
    rw [← visits_readsOk skipDirs root tree hreads] at hu
    have h := hcourse hroot (by rw [hu]; simp)
    rw [hu] at h
    refine ⟨h.1, ?_⟩
    rw [h.2.1, visits_readsOk skipDirs root tree hreads, filterMap_source_files]
  · intro hroot hreads pre p post e hkept hpre hp he
    rw [keptFiles_eq_rec] at hkept
    have hu := untilError_files_fail (Visit.error env save exclRes method) pre post p e hpre hp
    rw [← hkept, ← visits_readsOk skipDirs root tree hreads] at hu
    have h := hcourse hroot (by rw [hu]; simpa using he)
    rw [hu] at h
    refine ⟨h.1, ?_⟩
    rw [h.2.1, filterMap_source_files]

/-- The theorem of C13 (amended) at a tree with a directory `vendor` at the top
and another one nested in `sub`, with the prune set `vendor`, where only the two
files outside these directories parse: the walk returns nil and the files passed
to `genSource` are `root/a.go` and `root/sub/b.go`; and at a directory with two
files where the parser fails: the walk returns the error of `pkg/a.go` and
`pkg/b.go` is not passed. -/
theorem genRecursive_prune_witness :
    ((genRecursive vendorEnv (.ok vendorTree) "root".toList true [] "json".toList
        ["vendor".toList]).1 = .Return none ∧
      calledSources (genRecursive vendorEnv (.ok vendorTree) "root".toList true []
        "json".toList ["vendor".toList]).2 = ["root/a.go".toList, "root/sub/b.go".toList]) ∧
    (filesBeneath "root".toList [] vendorTree).map Prod.fst =
      ["root/a.go".toList, "root/vendor/v.go".toList, "root/vendor/x/w.go".toList,
        "root/sub/b.go".toList, "root/sub/vendor/u.go".toList] ∧
    ((genRecursive quietEnv (.ok twoFilesTree) "pkg".toList false [] "json".toList []).1 =
        .Return (some (.errorf "failed parsing source file pkg/a.go: ".toList)) ∧
      calledSources (genRecursive quietEnv (.ok twoFilesTree) "pkg".toList false []
        "json".toList []).2 = [] ++ ["pkg/a.go".toList]) :=
  ⟨by
    have hk : keptFiles ["vendor".toList] "root".toList vendorTree =
        ["root/a.go".toList, "root/sub/b.go".toList] := by decide
    have h := (genRecursive_prune vendorEnv true [] "json".toList ["vendor".toList]
      "root".toList vendorTree).2.2.2.2.1 (by decide) (by decide) (fun p hp => by
        rw [hk] at hp
        rcases List.mem_cons.1 hp with rfl | hp
        · rfl
        · rcases List.mem_cons.1 hp with rfl | hp
          · rfl
          · cases hp)
    rw [hk] at h
    exact h,
    by decide,
    (genRecursive_prune quietEnv false [] "json".toList [] "pkg".toList
      twoFilesTree).2.2.2.2.2 (by decide) (by decide) [] "pkg/a.go".toList
      ["pkg/b.go".toList] (.errorf "failed parsing source file pkg/a.go: ".toList)
      (by decide) (fun q hq => by cases hq) rfl (by decide)⟩

/-- For an entry that is not nil and not a directory named in the skip list, a
traversal error makes the callback return that error without calling `genSource`
and without any outside call. -/
theorem genRecursive_func1_error (env : Env) (save : Bool) (exclRes : List Regexp)
    (method : GoString) (skipDirs : List GoString) (path : GoString) (d : DirEntry)
    (err : Error) (h : isInSkipDirs d skipDirs = false) :
    genRecursive_func1 env save exclRes method skipDirs path (some d) (some err) =
      (.Return (some err), []) := by
  simp [genRecursive_func1, h]

/-- The theorem `genRecursive_func1_error` at the directory `pkg`, whose read
fails, with the skip list parsed from the empty flag value. -/
theorem genRecursive_func1_error_witness :
    genRecursive_func1 quietEnv true [] "json".toList (parseSkipDir []) "pkg".toList
      (some ⟨"pkg".toList, true⟩) (some (.external "permission denied".toList)) =
      (.Return (some (.external "permission denied".toList)), []) :=
  genRecursive_func1_error quietEnv true [] "json".toList (parseSkipDir []) "pkg".toList
    ⟨"pkg".toList, true⟩ (.external "permission denied".toList) (by decide)

/-! ## The default skip list (`-skipdir` not given) -/

mutual
theorem filesBeneath_names (P : GoString → Bool) :
    ∀ (path : GoString) (above : List GoString) (node : Node),
      above.all P = true → dirNamesNonEmpty node = true →
      (∀ name, name ≠ [] → P name = true) →
      ∀ f ∈ filesBeneath path above node, f.2.all P = true
  | path, above, .file _, h, _, _ => by
    intro f hf
    simp only [filesBeneath, List.mem_singleton] at hf
    subst hf
    exact h
  | path, above, .dir name _ entries, h, hn, hP => by
    simp only [dirNamesNonEmpty, Bool.and_eq_true, decide_eq_true_eq] at hn
    simp only [filesBeneath]
    exact filesBeneathList_names P path (name :: above) entries
      (by simp only [List.all_cons, h, hP name hn.1, Bool.and_self]) hn.2 hP
theorem filesBeneathList_names (P : GoString → Bool) :
    ∀ (path : GoString) (above : List GoString) (entries : List Node),
      above.all P = true → dirNamesNonEmptyList entries = true →
      (∀ name, name ≠ [] → P name = true) →
      ∀ f ∈ filesBeneathList path above entries, f.2.all P = true
  | _, _, [], _, _, _ => by simp [filesBeneathList]
  | path, above, d1 :: rest, h, hn, hP => by
    simp only [dirNamesNonEmptyList, Bool.and_eq_true] at hn
    intro f hf
    simp only [filesBeneathList, List.mem_append] at hf
    rcases hf with hf | hf
    · exact filesBeneath_names P (filepath_Join path d1.name) above d1 h hn.1 hP f hf
    · exact filesBeneathList_names P path above rest h hn.2 hP f hf
end

/-- C21: the skip list computed from the default empty `-skipdir` value is the
one-element list of the empty string, not the empty list, and yet
`isInSkipDirs` is false on it for every entry whose name is not empty; the
callback then returns nil, not `SkipDir`, for such a directory, and in a tree
whose directories have non-empty names no file is kept from the walk: no
directory is pruned. -/
theorem isInSkipDirs_default (d : DirEntry) (h : d.Name ≠ []) :
    parseSkipDir skipdirDefault = [[]] ∧
    parseSkipDir skipdirDefault ≠ [] ∧
    isInSkipDirs d (parseSkipDir skipdirDefault) = false ∧
    (∀ (env : Env) (save : Bool) (exclRes : List Regexp) (method path : GoString),
      d.IsDir = true →
      genRecursive_func1 env save exclRes method (parseSkipDir skipdirDefault) path (some d)
        none = (.Return none, [])) ∧
    (∀ (root : GoString) (tree : Node), dirNamesNonEmpty tree = true →
      keptFiles (parseSkipDir skipdirDefault) root tree =
        (filesBeneath root [] tree).map Prod.fst) := by
  have hp : parseSkipDir skipdirDefault = [[]] := rfl
  have hi : isInSkipDirs d (parseSkipDir skipdirDefault) = false := by
    rw [isInSkipDirs_eq, hp]
    simp [h]
  refine ⟨hp, by rw [hp]; simp, hi, ?_, ?_⟩
  · intro env save exclRes method path hd
    simp [genRecursive_func1, hi, hd]
  · intro root tree ht
    unfold keptFiles
    congr 1
    rw [List.filter_eq_self]
    intro f hf
    exact filesBeneath_names (fun name => decide (name ∉ parseSkipDir skipdirDefault))
      root [] tree rfl ht (by intro name hn; rw [hp]; simpa using hn) f hf

/-- The theorem of C21 at the directory `vendor` and at a tree with directories
`vendor`: with the default skip list all five files of the tree are kept. -/
theorem isInSkipDirs_default_witness :
    isInSkipDirs ⟨"vendor".toList, true⟩ (parseSkipDir skipdirDefault) = false ∧
    keptFiles (parseSkipDir skipdirDefault) "root".toList vendorTree =
      ["root/a.go".toList, "root/vendor/v.go".toList, "root/vendor/x/w.go".toList,
        "root/sub/b.go".toList, "root/sub/vendor/u.go".toList] :=
  ⟨(isInSkipDirs_default ⟨"vendor".toList, true⟩ (by decide)).2.2.1,
    by
      rw [(isInSkipDirs_default ⟨"vendor".toList, true⟩ (by decide)).2.2.2.2 "root".toList
        vendorTree (by decide)]
      decide⟩

end StringerGen
